import Mathlib

/-!
Verification of the `cccm` memory-substrate core (`src/cccm/core/*.py`)
against its natural-language specification.

Strings are modelled as `List Char` (`Str`); file reads appear as explicit
inputs (a `Store` record, a document content, a lines list), so every
operation is a pure function translated clause-by-clause from the Python
source.  Machine integers are `Nat`/`Int`; Python slices, dict merges and
truthiness are modelled explicitly where the source relies on them.
-/

namespace CCCM

/-- Strings are modelled as lists of characters. -/
abbrev Str := List Char

/-- Substring containment, the Python `pat in s` test on strings. -/
def containsStr (pat : Str) : Str → Bool
  | [] => pat.isEmpty
  | c :: rest => pat.isPrefixOf (c :: rest) || containsStr pat rest

/-- `List.isPrefixOf` agrees with the existential characterization. -/
theorem isPrefixOf_eq_true_iff : ∀ (p s : Str), p.isPrefixOf s = true ↔ ∃ t, s = p ++ t := by
  intro p
  induction p with
  | nil => intro s; simp [List.isPrefixOf]
  | cons a as ih =>
    intro s
    cases s with
    | nil => simp [List.isPrefixOf]
    | cons b bs =>
      simp only [List.isPrefixOf, Bool.and_eq_true, beq_iff_eq, ih bs]
      constructor
      · rintro ⟨rfl, t, rfl⟩; exact ⟨t, rfl⟩
      · rintro ⟨t, h⟩
        injection h with h1 h2
        exact ⟨h1.symm, t, h2⟩

/-- `containsStr` agrees with the existential "occurs somewhere" characterization. -/
theorem containsStr_eq_true_iff (pat : Str) :
    ∀ s : Str, containsStr pat s = true ↔ ∃ a b, s = a ++ pat ++ b := by
  intro s
  induction s with
  | nil =>
    simp only [containsStr, List.isEmpty_iff]
    constructor
    · rintro rfl; exact ⟨[], [], rfl⟩
    · rintro ⟨a, b, h⟩
      rcases List.append_eq_nil.mp h.symm with ⟨h1, h2⟩
      exact (List.append_eq_nil.mp h1).2
  | cons c rest ih =>
    simp only [containsStr, Bool.or_eq_true, ih, isPrefixOf_eq_true_iff]
    constructor
    · rintro (⟨t, h⟩ | ⟨a, b, rfl⟩)
      · exact ⟨[], t, by simpa using h⟩
      · exact ⟨c :: a, b, rfl⟩
    · rintro ⟨a, b, h⟩
      cases a with
      | nil => exact Or.inl ⟨b, by simpa using h⟩
      | cons a0 as =>
        right
        injection h with h1 h2
        exact ⟨as, b, h2⟩

/-- The empty pattern occurs in every string. -/
theorem containsStr_nil (s : Str) : containsStr [] s = true := by
  cases s <;> simp [containsStr, List.isPrefixOf]

/-- A pattern occurring in `b` occurs in `a ++ b ++ c`. -/
theorem containsStr_append_three (pat a b c : Str) (h : containsStr pat b = true) :
    containsStr pat (a ++ b ++ c) = true := by
  rcases (containsStr_eq_true_iff pat b).mp h with ⟨x, y, rfl⟩
  exact (containsStr_eq_true_iff pat _).mpr ⟨a ++ x, y ++ c, by simp⟩

/-- A pattern that does not end in `'\n'` and occurs in `s ++ ['\n']` already
occurs in `s`. -/
theorem containsStr_of_append_newline (pat s : Str)
    (hlast : ∀ p', pat ≠ p' ++ ['\n']) (h : containsStr pat (s ++ ['\n']) = true) :
    containsStr pat s = true := by
  rcases (containsStr_eq_true_iff pat _).mp h with ⟨a, b, hdecomp⟩
  rcases List.eq_nil_or_concat b with rfl | ⟨b', x, rfl⟩
  · rcases List.eq_nil_or_concat pat with rfl | ⟨p', q, hp⟩
    · exact containsStr_nil s
    · subst hp
      have h2 : s ++ ['\n'] = (a ++ p') ++ [q] := by
        simpa [List.append_assoc] using hdecomp
      have h3 : ['\n'] = [q] := (List.append_inj' h2 rfl).2
      have hq : q = '\n' := by injection h3 with h4; exact h4.symm
      subst hq
      exact absurd (List.concat_eq_append p' '\n') (hlast p')
  · have h2 : s ++ ['\n'] = (a ++ pat ++ b') ++ [x] := by
      simpa [List.append_assoc] using hdecomp
    have h3 : s = a ++ pat ++ b' := (List.append_inj' h2 rfl).1
    exact (containsStr_eq_true_iff pat s).mpr ⟨a, b', h3⟩

section Memory
/-!
### `src/cccm/core/memory.py`

`add_recent_file` and `append_event` mutate the in-memory index record; we
model the mutated field (`recent_files` resp. `events`) as an explicit list
passed in and returned.
-/

/-- One entry of the `events` list: `{"ts": ..., "kind": ..., "payload": ...}`. -/
structure Event where
  ts : Str
  kind : Str
  payload : List (Str × Str)
deriving DecidableEq

/-- `append_event` (memory.py:110-116): append `{ts, kind, payload}` and trim
to the last 200 entries (`events[-200:]`) when the list exceeds 200. -/
def append_event (events : List Event) (ts kind : Str) (payload : List (Str × Str)) :
    List Event :=
  let events' := events ++ [⟨ts, kind, payload⟩]
  if 200 < events'.length then events'.drop (events'.length - 200) else events'

/-- `add_recent_file` (memory.py:119-124): remove an existing occurrence,
insert at the front, truncate to 50 (`recent[:50]`). -/
def add_recent_file (recent : List Str) (fp : Str) : List Str :=
  let recent' := if fp ∈ recent then recent.erase fp else recent
  (fp :: recent').take 50

/-- One `add_recent_file` step keeps the list duplicate-free and within 50 entries. -/
theorem add_recent_file_step (l : List Str) (p : Str) (h : l.Nodup) :
    (add_recent_file l p).Nodup ∧ (add_recent_file l p).length ≤ 50 := by
  constructor
  · apply List.Nodup.sublist (List.take_sublist _ _)
    refine List.nodup_cons.mpr ⟨?_, ?_⟩
    · by_cases hp : p ∈ l
      · simp only [add_recent_file, if_pos hp]
        intro hmem
        exact ((List.Nodup.mem_erase_iff h).mp hmem).1 rfl
      · simp only [add_recent_file, if_neg hp]
        exact hp
    · by_cases hp : p ∈ l
      · simpa [add_recent_file, if_pos hp] using h.erase p
      · simp only [add_recent_file, if_neg hp]
        exact h
  · simp [add_recent_file]

/-- Folding `add_recent_file` preserves `Nodup`. -/
theorem foldl_add_recent_file_nodup (ps : List Str) :
    ∀ l : List Str, l.Nodup → (ps.foldl add_recent_file l).Nodup := by
  induction ps with
  | nil => intro l h; simpa using h
  | cons p ps ih =>
    intro l h
    exact ih _ (add_recent_file_step l p h).1

/-- Keep-first deduplication; `seen` holds the paths already kept. -/
def dedupFirstAux (seen : List Str) : List Str → List Str
  | [] => []
  | x :: xs => if x ∈ seen then dedupFirstAux seen xs else x :: dedupFirstAux (x :: seen) xs

/-- Keep the first occurrence of each path.  `dedupFirst ps.reverse` lists the
distinct paths of the call sequence `ps` ordered by most recent addition. -/
def dedupFirst (l : List Str) : List Str := dedupFirstAux [] l

theorem dedupFirstAux_eq_filter :
    ∀ (l seen : List Str),
      dedupFirstAux seen l = (dedupFirst l).filter (fun x => decide (x ∉ seen)) := by
  intro l
  induction l with
  | nil => intro seen; rfl
  | cons x xs ih =>
    intro seen
    show (if x ∈ seen then dedupFirstAux seen xs else x :: dedupFirstAux (x :: seen) xs) =
      ((if x ∈ ([] : List Str) then dedupFirstAux [] xs
        else x :: dedupFirstAux [x] xs).filter (fun y => decide (y ∉ seen)))
    rw [if_neg (List.not_mem_nil x), List.filter_cons]
    by_cases hx : x ∈ seen
    · rw [if_pos hx]
      rw [show (decide (x ∉ seen)) = false from by simp [hx]]
      simp only [Bool.false_eq_true, if_false]
      rw [ih seen, ih [x], List.filter_filter]
      apply List.filter_congr
      intro a _
      by_cases hax : a = x
      · subst hax
        simp [hx]
      · simp [hax]
    · rw [if_neg hx]
      rw [show (decide (x ∉ seen)) = true from by simp [hx]]
      simp only [if_true]
      congr 1
      rw [ih (x :: seen), ih [x], List.filter_filter]
      apply List.filter_congr
      intro a _
      by_cases hax : a = x
      · subst hax
        simp
      · simp [hax]

theorem dedupFirstAux_nodup :
    ∀ (l seen : List Str),
      (dedupFirstAux seen l).Nodup ∧ ∀ x ∈ dedupFirstAux seen l, x ∉ seen := by
  intro l
  induction l with
  | nil =>
    intro seen
    exact ⟨List.nodup_nil, fun x hx => absurd hx (List.not_mem_nil x)⟩
  | cons y ys ih =>
    intro seen
    show ((if y ∈ seen then dedupFirstAux seen ys
        else y :: dedupFirstAux (y :: seen) ys).Nodup ∧
      ∀ x ∈ (if y ∈ seen then dedupFirstAux seen ys
        else y :: dedupFirstAux (y :: seen) ys), x ∉ seen)
    by_cases hy : y ∈ seen
    · rw [if_pos hy]
      exact ih seen
    · rw [if_neg hy]
      obtain ⟨hnd, hmem⟩ := ih (y :: seen)
      refine ⟨List.nodup_cons.mpr ⟨?_, hnd⟩, ?_⟩
      · intro hyin
        exact hmem y hyin (by simp)
      · intro x hx
        rcases List.mem_cons.mp hx with rfl | hx'
        · exact hy
        · intro hxs
          exact hmem x hx' (by simp [hxs])

theorem dedupFirst_nodup (l : List Str) : (dedupFirst l).Nodup :=
  (dedupFirstAux_nodup l []).1

theorem dedupFirst_cons (p : Str) (r : List Str) :
    dedupFirst (p :: r) = p :: (dedupFirst r).filter (fun x => x != p) := by
  show (if p ∈ ([] : List Str) then dedupFirstAux [] r
        else p :: dedupFirstAux [p] r) = _
  rw [if_neg (List.not_mem_nil p)]
  congr 1
  rw [dedupFirstAux_eq_filter r [p]]
  apply List.filter_congr
  intro a _
  by_cases hap : a = p
  · subst hap
    simp
  · simp [hap, bne]

/-- One capped-state step: applying `add_recent_file` to the 50-entry window
of a duplicate-free list `D` equals moving `p` to the front of `D` (removing
its old occurrence) and re-capping. -/
theorem add_recent_file_take (D : List Str) (p : Str) (hD : D.Nodup) :
    add_recent_file (D.take 50) p =
      (p :: D.filter (fun x => x != p)).take 50 := by
  have hnd50 : (D.take 50).Nodup := hD.sublist (List.take_sublist 50 D)
  have hcons : ∀ l : List Str, (p :: l).take 50 = p :: l.take 49 := fun l => rfl
  unfold add_recent_file
  by_cases hp : p ∈ D.take 50
  · rw [if_pos hp]
    have hcore : (D.take 50).erase p = (D.take 50).filter (fun x => x != p) :=
      hnd50.erase_eq_filter p
    rw [hcore, hcons, hcons]
    conv_rhs => rw [← List.take_append_drop 50 D]
    rw [List.filter_append, List.take_append_eq_append_take]
    by_cases hlen : 50 ≤ D.length
    · have hl50 : (D.take 50).length = 50 := by
        rw [List.length_take]
        omega
      have hfl : ((D.take 50).filter (fun x => x != p)).length = 49 := by
        rw [← hcore, List.length_erase_of_mem hp, hl50]
      rw [hfl, List.take_of_length_le (le_of_eq hfl)]
      simp
    · have hdrop : D.drop 50 = [] := List.drop_eq_nil_of_le (by omega)
      rw [hdrop]
      simp
  · rw [if_neg hp, hcons, hcons, List.take_take,
      show (49 : Nat) ⊓ 50 = 49 from by norm_num]
    conv_rhs => rw [← List.take_append_drop 49 D]
    rw [List.filter_append, List.take_append_eq_append_take]
    have hq49 : (D.take 49).filter (fun x => x != p) = D.take 49 := by
      rw [List.filter_eq_self]
      intro a ha
      have hmem50 : a ∈ D.take 50 := by
        have : a ∈ (D.take 50).take 49 := by
          rw [List.take_take, show (49 : Nat) ⊓ 50 = 49 from by norm_num]
          exact ha
        exact List.mem_of_mem_take this
      simp only [bne_iff_ne, ne_eq, decide_eq_true_eq]
      intro heq
      exact hp (heq ▸ hmem50)
    rw [hq49]
    by_cases hlen : 49 ≤ D.length
    · have h49 : (D.take 49).length = 49 := by
        rw [List.length_take]
        omega
      rw [h49, List.take_of_length_le (le_of_eq h49)]
      simp
    · have hdrop : D.drop 49 = [] := List.drop_eq_nil_of_le (by omega)
      rw [hdrop, List.take_take, show (49 : Nat) ⊓ 49 = 49 from by norm_num]
      simp

/-- The state after any call sequence is exactly the MRU list: the distinct
paths ordered by most recent addition, capped at 50. -/
theorem foldl_add_recent_file_eq (ps : List Str) :
    ps.foldl add_recent_file [] = (dedupFirst ps.reverse).take 50 := by
  induction ps using List.reverseRecOn with
  | nil => rfl
  | append_singleton qs q ih =>
    rw [List.foldl_append, List.foldl_cons, List.foldl_nil, ih, List.reverse_append]
    simp only [List.reverse_cons, List.reverse_nil, List.nil_append, List.singleton_append]
    rw [dedupFirst_cons, add_recent_file_take _ q (dedupFirst_nodup qs.reverse)]

/-- C6: every sequence of `addRecentFile` calls from an empty list yields
exactly the MRU list — the distinct paths of the call sequence ordered by
most recent addition (`dedupFirst ps.reverse`), capped at 50 — hence a
duplicate-free list of at most 50 entries ordered most-recently-used first;
re-adding an element already present moves it to the front (it becomes the
head) without changing the length. -/
theorem add_recent_file_invariants :
    (∀ ps : List Str,
      ps.foldl add_recent_file [] = (dedupFirst ps.reverse).take 50 ∧
      (ps.foldl add_recent_file []).Nodup ∧
      (ps.foldl add_recent_file []).length ≤ 50) ∧
    (∀ (l : List Str) (p : Str), l.Nodup → l.length ≤ 50 →
      (add_recent_file l p).headD [] = p ∧
      (p ∈ l → (add_recent_file l p).length = l.length)) := by
  constructor
  · intro ps
    refine ⟨foldl_add_recent_file_eq ps, foldl_add_recent_file_nodup ps [] (by simp), ?_⟩
    rw [foldl_add_recent_file_eq ps, List.length_take]
    exact Nat.min_le_left _ _
  · intro l p hnd hlen
    constructor
    · simp [add_recent_file]
    · intro hp
      have herase : (l.erase p).length = l.length - 1 := List.length_erase_of_mem hp
      have hpos : 1 ≤ l.length := List.length_pos.mpr (by rintro rfl; exact List.not_mem_nil p hp)
      simp only [add_recent_file, if_pos hp, List.length_take, List.length_cons, herase]
      omega

/-- C6 witness. -/
theorem add_recent_file_invariants_witness :
    (add_recent_file ["b.py".toList, "a.py".toList] "a.py".toList).headD [] = "a.py".toList ∧
    (add_recent_file ["b.py".toList, "a.py".toList] "a.py".toList).length = 2 := by
  have h := add_recent_file_invariants.2 ["b.py".toList, "a.py".toList] "a.py".toList
    (by decide) (by decide)
  exact ⟨h.1, h.2 (by decide)⟩

/-- C7: every sequence of `appendEvent` calls from an empty list keeps at most
200 events, and the retained events are exactly the most recently appended
ones, in append order (the suffix of the full call sequence). -/
theorem append_event_invariants (calls : List (Str × Str × List (Str × Str))) :
    (calls.foldl (fun es c => append_event es c.1 c.2.1 c.2.2) []).length ≤ 200 ∧
    calls.foldl (fun es c => append_event es c.1 c.2.1 c.2.2) [] =
      (calls.map (fun c => Event.mk c.1 c.2.1 c.2.2)).drop (calls.length - 200) := by
  have main : ∀ cs : List (Str × Str × List (Str × Str)),
      cs.foldl (fun es c => append_event es c.1 c.2.1 c.2.2) [] =
        (cs.map (fun c => Event.mk c.1 c.2.1 c.2.2)).drop (cs.length - 200) := by
    intro cs
    induction cs using List.reverseRecOn with
    | nil => simp
    | append_singleton qs q ih =>
      rw [List.foldl_append, List.foldl_cons, List.foldl_nil, ih]
      simp only [List.map_append, List.map_cons, List.map_nil, List.length_append,
        List.length_map, List.length_cons, List.length_nil]
      set L := qs.map (fun c => Event.mk c.1 c.2.1 c.2.2) with hL
      have hlen : L.length = qs.length := by simp [hL]
      by_cases hc : qs.length < 200
      · have h0 : qs.length - 200 = 0 := by omega
        have h1 : qs.length + (0 + 1) - 200 = 0 := by omega
        rw [h0, h1, List.drop_zero, List.drop_zero]
        rw [append_event]
        have : ¬ 200 < (L ++ [Event.mk q.1 q.2.1 q.2.2]).length := by
          simp [hlen]; omega
        simp only [if_neg this]
      · have hge : 200 ≤ qs.length := by omega
        have hdroplen : (L.drop (qs.length - 200)).length = 200 := by
          simp [hlen]; omega
        rw [append_event]
        have hgt : 200 < (L.drop (qs.length - 200) ++ [Event.mk q.1 q.2.1 q.2.2]).length := by
          simp [hdroplen]
        simp only [if_pos hgt]
        have h2 : (L.drop (qs.length - 200) ++ [Event.mk q.1 q.2.1 q.2.2]).length - 200 = 1 := by
          simp [hdroplen]
        rw [h2]
        rw [List.drop_append_of_le_length (by omega : 1 ≤ (L.drop (qs.length - 200)).length)]
        rw [List.drop_drop]
        rw [List.drop_append_of_le_length (by omega : qs.length + (0 + 1) - 200 ≤ L.length)]
        have h4 : qs.length - 200 + 1 = qs.length + (0 + 1) - 200 := by omega
        rw [h4]
  refine ⟨?_, main calls⟩
  rw [main calls]
  simp only [List.length_drop, List.length_map]
  omega

end Memory

section Config
/-!
### `load_config` (`src/cccm/core/memory.py:85-96`)

JSON objects are modelled as association lists with Python-dict update
semantics (`alistSet` replaces in place, appends when missing).  The persisted
config file is modelled as the parsed top-level object (`load_json` of a
missing/corrupt file is the empty object `[]`).
-/

/-- Primitive JSON values appearing in the config. -/
inductive Prim where
  | pint (n : Int)
  | pstr (s : String)
  | plist (xs : List String)
  | pbool (b : Bool)
deriving DecidableEq

/-- A top-level config value: a primitive or a nested object (section). -/
inductive TopVal where
  | prim (p : Prim)
  | table (kvs : List (String × Prim))
deriving DecidableEq

/-- Python `d[k]` lookup for an association list. -/
def alistGet {β : Type} (k : String) : List (String × β) → Option β
  | [] => none
  | (k', v) :: rest => if k' = k then some v else alistGet k rest

/-- Python `d[k] = v`: replace in place if present, append otherwise. -/
def alistSet {β : Type} (k : String) (v : β) : List (String × β) → List (String × β)
  | [] => [(k, v)]
  | (k', v') :: rest => if k' = k then (k, v) :: rest else (k', v') :: alistSet k v rest

/-- Python `{**a, **b}` on two objects. -/
def dictMerge (a b : List (String × Prim)) : List (String × Prim) :=
  b.foldl (fun acc kv => alistSet kv.1 kv.2 acc) a

/-- Python truthiness of a config value (`elif cfg_val:`). -/
def truthy : TopVal → Bool
  | .prim (.pint n) => n != 0
  | .prim (.pstr s) => !s.isEmpty
  | .prim (.plist xs) => !xs.isEmpty
  | .prim (.pbool b) => b
  | .table kvs => !kvs.isEmpty

/-- `DEFAULT_CONFIG` (memory.py:12-27). -/
def DEFAULT_CONFIG : List (String × TopVal) :=
  [("version", .prim (.pstr "0.2.0")),
   ("snapshot", .table [("max_chars_injected", .pint 6000),
                        ("max_snapshot_chars", .pint 25000),
                        ("max_snapshots", .pint 50)]),
   ("tracking", .table [("track_tools", .plist ["Write", "Edit", "MultiEdit", "Bash"]),
                        ("track_decisions", .pbool true)]),
   ("prompt_inject", .table [("max_chars", .pint 2000)]),
   ("agent_budgets", .table [])]

/-- The section names iterated by `load_config`. -/
def RECOGNIZED_SECTIONS : List String :=
  ["snapshot", "tracking", "prompt_inject", "agent_budgets"]

/-- One iteration of the merge loop in `load_config`. -/
def load_config_step (cfg merged : List (String × TopVal)) (sec : String) :
    List (String × TopVal) :=
  let defaultVal := (alistGet sec DEFAULT_CONFIG).getD (.table [])
  let cfgVal := (alistGet sec cfg).getD (.table [])
  match defaultVal, cfgVal with
  | .table dv, .table cv => alistSet sec (.table (dictMerge dv cv)) merged
  | _, cv => if truthy cv then alistSet sec cv merged else merged

/-- `load_config` (memory.py:85-96): start from `{**DEFAULT_CONFIG}` and merge
each recognized section of the persisted config over the default. -/
def load_config (cfg : List (String × TopVal)) : List (String × TopVal) :=
  RECOGNIZED_SECTIONS.foldl (load_config_step cfg) DEFAULT_CONFIG

theorem alistGet_alistSet_self {β : Type} (k : String) (v : β) :
    ∀ d : List (String × β), alistGet k (alistSet k v d) = some v := by
  intro d
  induction d with
  | nil => simp [alistGet, alistSet]
  | cons kv rest ih =>
    obtain ⟨k', v'⟩ := kv
    by_cases h : k' = k
    · simp [alistGet, alistSet, h]
    · simp [alistGet, alistSet, h, ih]

theorem alistGet_alistSet_other {β : Type} (k k' : String) (v : β) (h : k' ≠ k) :
    ∀ d : List (String × β), alistGet k' (alistSet k v d) = alistGet k' d := by
  have h2 : ¬ (k = k') := fun hh => h hh.symm
  intro d
  induction d with
  | nil => simp [alistGet, alistSet, h2]
  | cons kv rest ih =>
    obtain ⟨k0, v0⟩ := kv
    by_cases h0 : k0 = k
    · subst h0
      simp [alistGet, alistSet, h2]
    · simp [alistGet, alistSet, h0, ih]

theorem alistSet_keys {β : Type} (k : String) (v : β) :
    ∀ d : List (String × β), k ∈ d.map Prod.fst →
      (alistSet k v d).map Prod.fst = d.map Prod.fst := by
  intro d
  induction d with
  | nil => simp
  | cons kv rest ih =>
    obtain ⟨k0, v0⟩ := kv
    intro hmem
    by_cases h0 : k0 = k
    · simp [alistSet, h0]
    · have : k ∈ rest.map Prod.fst := by
        rcases (by simpa using hmem) with h | h
        · exact absurd h.symm h0
        · simpa using h
      simp [alistSet, h0, ih this]

theorem alistGet_eq_none_iff {β : Type} (k : String) :
    ∀ d : List (String × β), alistGet k d = none ↔ k ∉ d.map Prod.fst := by
  intro d
  induction d with
  | nil => simp [alistGet]
  | cons kv rest ih =>
    obtain ⟨k0, v0⟩ := kv
    by_cases h0 : k0 = k
    · simp [alistGet, h0]
    · have h1 : ¬ (k = k0) := fun hh => h0 hh.symm
      simp [alistGet, h0, ih, h1]

theorem alistGet_dictMerge_not_mem (k : String) :
    ∀ (b a : List (String × Prim)), k ∉ b.map Prod.fst →
      alistGet k (dictMerge a b) = alistGet k a := by
  intro b
  induction b with
  | nil => intro a _; rfl
  | cons kv rest ih =>
    obtain ⟨k0, v0⟩ := kv
    intro a hmem
    have hne : k0 ≠ k := by
      intro h; exact hmem (by simp [h])
    have hrest : k ∉ rest.map Prod.fst := fun h => hmem (by simp [h])
    show alistGet k (dictMerge (alistSet k0 v0 a) rest) = alistGet k a
    rw [ih _ hrest, alistGet_alistSet_other k0 k v0 (fun h => hne h.symm)]

theorem alistGet_dictMerge_of_some (k : String) (v : Prim) :
    ∀ (b a : List (String × Prim)), (b.map Prod.fst).Nodup →
      alistGet k b = some v → alistGet k (dictMerge a b) = some v := by
  intro b
  induction b with
  | nil => intro a _ h; simp [alistGet] at h
  | cons kv rest ih =>
    obtain ⟨k0, v0⟩ := kv
    intro a hnd hget
    have hnd' : (rest.map Prod.fst).Nodup := (List.nodup_cons.mp (by simpa using hnd)).2
    by_cases h0 : k0 = k
    · subst h0
      have hv : v0 = v := by simpa [alistGet] using hget
      subst hv
      have hk : k0 ∉ rest.map Prod.fst := (List.nodup_cons.mp (by simpa using hnd)).1
      show alistGet k0 (dictMerge (alistSet k0 v0 a) rest) = some v0
      rw [alistGet_dictMerge_not_mem k0 rest _ hk, alistGet_alistSet_self]
    · have hget' : alistGet k rest = some v := by simpa [alistGet, h0] using hget
      exact ih _ hnd' hget'

theorem alistGet_dictMerge_of_none (k : String) :
    ∀ (b a : List (String × Prim)), alistGet k b = none →
      alistGet k (dictMerge a b) = alistGet k a := by
  intro b a h
  exact alistGet_dictMerge_not_mem k b a ((alistGet_eq_none_iff k b).mp h)

theorem load_config_step_other (cfg m : List (String × TopVal)) (sec' sec : String)
    (h : sec ≠ sec') : alistGet sec (load_config_step cfg m sec') = alistGet sec m := by
  unfold load_config_step
  rcases (alistGet sec' DEFAULT_CONFIG).getD (.table []) with p | dv <;>
    rcases hcv : (alistGet sec' cfg).getD (.table []) with q | cv <;>
      simp only [] <;>
      first
        | (rw [alistGet_alistSet_other sec' sec _ h])
        | (split <;> [rw [alistGet_alistSet_other sec' sec _ h]; rfl])

theorem load_config_step_keys (cfg m : List (String × TopVal)) (sec' : String)
    (h : sec' ∈ m.map Prod.fst) :
    (load_config_step cfg m sec').map Prod.fst = m.map Prod.fst := by
  unfold load_config_step
  rcases (alistGet sec' DEFAULT_CONFIG).getD (.table []) with p | dv <;>
    rcases hcv : (alistGet sec' cfg).getD (.table []) with q | cv <;>
      simp only [] <;>
      first
        | (rw [alistSet_keys sec' _ m h])
        | (split <;> [rw [alistSet_keys sec' _ m h]; rfl])

theorem load_config_step_self_table (cfg m : List (String × TopVal)) (sec : String)
    (dv cv : List (String × Prim))
    (hdv : alistGet sec DEFAULT_CONFIG = some (.table dv))
    (hcv : alistGet sec cfg = some (.table cv)) :
    alistGet sec (load_config_step cfg m sec) = some (.table (dictMerge dv cv)) := by
  unfold load_config_step
  rw [hdv, hcv]
  exact alistGet_alistSet_self sec _ m

theorem load_config_step_self_absent (cfg m : List (String × TopVal)) (sec : String)
    (dv : List (String × Prim))
    (hdv : alistGet sec DEFAULT_CONFIG = some (.table dv))
    (hcv : alistGet sec cfg = none) :
    alistGet sec (load_config_step cfg m sec) = some (.table dv) := by
  unfold load_config_step
  rw [hdv, hcv]
  show alistGet sec (alistSet sec (.table (dictMerge dv [])) m) = some (.table dv)
  rw [alistGet_alistSet_self]
  rfl

/-- C1 counterexample: an unrecognized top-level section (`"custom"`) of the
persisted config is NOT passed through into the result — `load_config` drops
it entirely, so looking it up in the merged config yields `none`, not the
persisted value. -/
theorem load_config_drops_unrecognized :
    alistGet "custom" (load_config [("custom", TopVal.table [("a", Prim.pint 1)])]) = none ∧
    alistGet "custom" (load_config [("custom", TopVal.table [("a", Prim.pint 1)])]) ≠
      some (TopVal.table [("a", Prim.pint 1)]) := by
  constructor <;> decide

/-- C1 (amended): `load_config` merges a persisted partial config over the
built-in defaults per recognized section (a key present in a persisted section
overrides the default, an absent key keeps the default); unrecognized
top-level sections of the persisted file are DISCARDED (the result has exactly
the default's top-level keys); and on a directory with no config file
(`load_json` yields the empty object) it returns exactly the built-in
defaults. -/
theorem load_config_spec (cfg : List (String × TopVal)) :
    load_config [] = DEFAULT_CONFIG ∧
    (load_config cfg).map Prod.fst = DEFAULT_CONFIG.map Prod.fst ∧
    (∀ sec ∈ RECOGNIZED_SECTIONS, ∀ dv cv,
      alistGet sec DEFAULT_CONFIG = some (.table dv) →
      alistGet sec cfg = some (.table cv) →
      alistGet sec (load_config cfg) = some (.table (dictMerge dv cv))) ∧
    (∀ sec ∈ RECOGNIZED_SECTIONS,
      alistGet sec cfg = none →
      alistGet sec (load_config cfg) = alistGet sec DEFAULT_CONFIG) ∧
    (∀ (dv cv : List (String × Prim)) (k : String),
      (cv.map Prod.fst).Nodup →
      (∀ v, alistGet k cv = some v → alistGet k (dictMerge dv cv) = some v) ∧
      (alistGet k cv = none → alistGet k (dictMerge dv cv) = alistGet k dv)) := by
  have hunf : load_config cfg =
      load_config_step cfg (load_config_step cfg (load_config_step cfg
        (load_config_step cfg DEFAULT_CONFIG "snapshot") "tracking") "prompt_inject")
        "agent_budgets" := rfl
  have hk1 : (load_config_step cfg DEFAULT_CONFIG "snapshot").map Prod.fst =
      DEFAULT_CONFIG.map Prod.fst :=
    load_config_step_keys cfg _ _ (by decide)
  have hk2 : (load_config_step cfg (load_config_step cfg DEFAULT_CONFIG "snapshot")
      "tracking").map Prod.fst = (load_config_step cfg DEFAULT_CONFIG "snapshot").map Prod.fst :=
    load_config_step_keys cfg _ _ (by rw [hk1]; decide)
  have hk3 := load_config_step_keys cfg
    (load_config_step cfg (load_config_step cfg DEFAULT_CONFIG "snapshot") "tracking")
    "prompt_inject" (by rw [hk2, hk1]; decide)
  have hk4 := load_config_step_keys cfg
    (load_config_step cfg (load_config_step cfg (load_config_step cfg DEFAULT_CONFIG
      "snapshot") "tracking") "prompt_inject")
    "agent_budgets" (by rw [hk3, hk2, hk1]; decide)
  refine ⟨by decide, ?_, ?_, ?_, ?_⟩
  · rw [hunf, hk4, hk3, hk2, hk1]
  · intro sec hsec dv cv hdv hcv
    have hsec' : sec = "snapshot" ∨ sec = "tracking" ∨ sec = "prompt_inject" ∨
        sec = "agent_budgets" := by simpa [RECOGNIZED_SECTIONS] using hsec
    rcases hsec' with rfl | rfl | rfl | rfl
    · rw [hunf, load_config_step_other cfg _ "agent_budgets" _ (by decide),
        load_config_step_other cfg _ "prompt_inject" _ (by decide),
        load_config_step_other cfg _ "tracking" _ (by decide)]
      exact load_config_step_self_table cfg _ _ dv cv hdv hcv
    · rw [hunf, load_config_step_other cfg _ "agent_budgets" _ (by decide),
        load_config_step_other cfg _ "prompt_inject" _ (by decide)]
      exact load_config_step_self_table cfg _ _ dv cv hdv hcv
    · rw [hunf, load_config_step_other cfg _ "agent_budgets" _ (by decide)]
      exact load_config_step_self_table cfg _ _ dv cv hdv hcv
    · rw [hunf]
      exact load_config_step_self_table cfg _ _ dv cv hdv hcv
  · intro sec hsec hcv
    have hsec' : sec = "snapshot" ∨ sec = "tracking" ∨ sec = "prompt_inject" ∨
        sec = "agent_budgets" := by simpa [RECOGNIZED_SECTIONS] using hsec
    rcases hsec' with rfl | rfl | rfl | rfl
    · rw [hunf, load_config_step_other cfg _ "agent_budgets" _ (by decide),
        load_config_step_other cfg _ "prompt_inject" _ (by decide),
        load_config_step_other cfg _ "tracking" _ (by decide),
        load_config_step_self_absent cfg _ _
          [("max_chars_injected", Prim.pint 6000), ("max_snapshot_chars", Prim.pint 25000),
           ("max_snapshots", Prim.pint 50)] (by decide) hcv]
      decide
    · rw [hunf, load_config_step_other cfg _ "agent_budgets" _ (by decide),
        load_config_step_other cfg _ "prompt_inject" _ (by decide),
        load_config_step_self_absent cfg _ _
          [("track_tools", Prim.plist ["Write", "Edit", "MultiEdit", "Bash"]),
           ("track_decisions", Prim.pbool true)] (by decide) hcv]
      decide
    · rw [hunf, load_config_step_other cfg _ "agent_budgets" _ (by decide),
        load_config_step_self_absent cfg _ _ [("max_chars", Prim.pint 2000)] (by decide) hcv]
      decide
    · rw [hunf, load_config_step_self_absent cfg _ _ [] (by decide) hcv]
      decide
  · intro dv cv k hnd
    exact ⟨fun v h => alistGet_dictMerge_of_some k v cv dv hnd h,
      fun h => alistGet_dictMerge_of_none k cv dv h⟩

/-- C1 witness: a persisted config overriding one `snapshot` key merges over
the defaults, and the `dictMerge` lookup laws hold at concrete inputs. -/
theorem load_config_spec_witness :
    alistGet "snapshot"
        (load_config [("snapshot", TopVal.table [("max_chars_injected", Prim.pint 3000)])]) =
      some (.table (dictMerge
        [("max_chars_injected", .pint 6000), ("max_snapshot_chars", .pint 25000),
         ("max_snapshots", .pint 50)]
        [("max_chars_injected", Prim.pint 3000)])) ∧
    alistGet "tracking"
        (load_config [("snapshot", TopVal.table [("max_chars_injected", Prim.pint 3000)])]) =
      alistGet "tracking" DEFAULT_CONFIG ∧
    alistGet "a" (dictMerge [("a", Prim.pint 1)] [("a", Prim.pint 2)]) = some (Prim.pint 2) := by
  have h := load_config_spec [("snapshot", TopVal.table [("max_chars_injected", Prim.pint 3000)])]
  exact ⟨h.2.2.1 "snapshot" (by decide) _ _ (by decide) (by decide),
    h.2.2.2.1 "tracking" (by decide) (by decide),
    (h.2.2.2.2 [("a", Prim.pint 1)] [("a", Prim.pint 2)] "a" (by decide)).1 _ (by decide)⟩

end Config

section Snapshot
/-!
### `_prune_snapshots` (`src/cccm/core/snapshot.py:101-110`)

The snapshots directory is modelled as the list of `*_continuity.md`
filenames; `sorted(...)` is Python's stable ascending sort on strings and
`files[: len(files) - max_keep]` is the deleted slice.  The function returns
`(kept, deleted)`.
-/

/-- Lexicographic `<=` on strings, as Python compares `str` (by code point). -/
def strLe : Str → Str → Bool
  | [], _ => true
  | _ :: _, [] => false
  | a :: as, b :: bs => if a = b then strLe as bs else decide (a < b)

/-- Stable ascending insertion for `sorted(files)`. -/
def insertAsc (x : Str) : List Str → List Str
  | [] => [x]
  | y :: ys => if strLe y x then y :: insertAsc x ys else x :: y :: ys

/-- Python `sorted(files)`: stable ascending sort. -/
def sortStrAsc (l : List Str) : List Str :=
  l.foldl (fun acc x => insertAsc x acc) []

/-- `_prune_snapshots` (snapshot.py:101-110): sort the filenames, do nothing
when the count is at most `max_keep`, otherwise delete the slice
`files[: len(files) - max_keep]` (the oldest surplus).  `max_keep` is a Python
`int`, so it may be zero or negative. -/
def prune_snapshots (files : List Str) (maxKeep : Int) : List Str × List Str :=
  let sorted := sortStrAsc files
  if (sorted.length : Int) ≤ maxKeep then (sorted, [])
  else
    let deleted := sorted.take ((sorted.length : Int) - maxKeep).toNat
    (sorted.drop deleted.length, deleted)

/-- C2 evaluation: with `max_snapshots = 0` the pruning pass deletes EVERY
snapshot file — in particular the one `save_snapshot` just wrote (here the
newest name, which `save_snapshot` produced last) — keeping nothing, instead
of treating a non-positive limit as "keep all" as the specification
requires. -/
theorem prune_snapshots_zero_deletes_written :
    prune_snapshots ["2025-01-01T00-00-00-000000Z_continuity.md".toList,
                     "2025-01-01T00-05-00-000000Z_continuity.md".toList] 0 =
      ([], ["2025-01-01T00-00-00-000000Z_continuity.md".toList,
            "2025-01-01T00-05-00-000000Z_continuity.md".toList]) ∧
    "2025-01-01T00-05-00-000000Z_continuity.md".toList ∈
      (prune_snapshots ["2025-01-01T00-00-00-000000Z_continuity.md".toList,
                        "2025-01-01T00-05-00-000000Z_continuity.md".toList] 0).2 := by
  constructor <;> decide

end Snapshot

section Search
/-!
### `src/cccm/core/search.py`

The filesystem is a `Store`: the raw content of each memory doc (by name) and
the `(filename, content)` pairs of the `*_continuity.md` snapshot files, plus
whether the snapshots directory exists.  `safe_read_text`'s truncation and
Python's `.strip()`/`.lower()` appear explicitly.
-/

/-- Python `str.lower()` (ASCII behaviour). -/
def lower (s : Str) : Str := s.map Char.toLower

/-- Python whitespace for `str.strip()`. -/
def pyWS (c : Char) : Bool :=
  c == ' ' || c == '\t' || c == '\n' || c == '\r' || c == '\x0b' || c == '\x0c'

/-- Python `str.strip()`: drop leading and trailing whitespace. -/
def pyStrip (s : Str) : Str :=
  ((s.dropWhile pyWS).reverse.dropWhile pyWS).reverse

/-- A character matched by the token regex `[a-z0-9_]` (on lowered text). -/
def tokChar (c : Char) : Bool :=
  ('a' ≤ c && c ≤ 'z') || ('0' ≤ c && c ≤ '9') || c == '_'

/-- Maximal `[a-z0-9_]+` runs (the regex `findall`); `cur` is the current run,
reversed. -/
def tokenRunsAux : Str → Str → List Str
  | cur, [] => if cur.isEmpty then [] else [cur.reverse]
  | cur, c :: cs =>
    if tokChar c then tokenRunsAux (c :: cur) cs
    else (if cur.isEmpty then [] else [cur.reverse]) ++ tokenRunsAux [] cs

/-- `tokenize` (search.py:18-20): lowercase, extract `[a-z0-9_]+` runs, as a
set (modelled as a deduplicated list; only membership matters). -/
def tokenize (s : Str) : List Str := (tokenRunsAux [] (lower s)).dedup

/-- `_fast_score` (search.py:23-25): number of distinct query tokens occurring
as substrings of the pre-lowered content. -/
def fast_score (queryTokens : List Str) (contentLower : Str) : Nat :=
  queryTokens.countP (fun t => containsStr t contentLower)

/-- Python `s.replace(pat, rep)` (left-to-right, non-overlapping), with a fuel
argument so the recursion is structural; `replaceAll` supplies `s.length`. -/
def replaceAllAux (pat rep : Str) : Nat → Str → Str
  | _, [] => []
  | 0, s => s
  | Nat.succ fuel, c :: rest =>
    if !pat.isEmpty && pat.isPrefixOf (c :: rest) then
      rep ++ replaceAllAux pat rep fuel ((c :: rest).drop pat.length)
    else c :: replaceAllAux pat rep fuel rest

/-- Python `s.replace(pat, rep)`. -/
def replaceAll (pat rep s : Str) : Str := replaceAllAux pat rep s.length s

/-- `_matches_tags` (search.py:106-109): lowercase the file name, strip
`".md"`, and test whether any tag (lowercased) occurs in it. -/
def matches_tags (name : String) (tags : List Str) : Bool :=
  let nameLower := replaceAll ".md".toList [] (lower name.toList)
  tags.any (fun tag => containsStr (lower tag) nameLower)

/-- Python `content.split("\n")`. -/
def splitOnNl : Str → List Str
  | [] => [[]]
  | c :: rest =>
    if c = '\n' then [] :: splitOnNl rest
    else
      match splitOnNl rest with
      | [] => [[c]]
      | l :: ls => (c :: l) :: ls

/-- Python `"\n".join(lines)`. -/
def joinNl (lines : List Str) : Str := List.intercalate ['\n'] lines

/-- Per-line score in `_extract_snippet`: distinct query tokens occurring in
the lowered line. -/
def lineScore (queryTokens : List Str) (line : Str) : Nat :=
  queryTokens.countP (fun t => containsStr t (lower line))

/-- The `for i, line in enumerate(lines)` loop of `_extract_snippet`, carrying
`(best_score, best_idx)`; updates only on a strict improvement. -/
def bestLoop (queryTokens : List Str) : List Str → Nat → Nat → Nat → Nat × Nat
  | [], _, bs, bi => (bs, bi)
  | l :: ls, i, bs, bi =>
    let s := lineScore queryTokens l
    if bs < s then bestLoop queryTokens ls (i + 1) s i
    else bestLoop queryTokens ls (i + 1) bs bi

/-- `_extract_snippet` (search.py:112-131): window `[best_idx-3, best_idx+8)`
(clipped) around the first best line, joined and capped; or the first
`max_snippet` characters when no line scores. -/
def extract_snippet (content : Str) (queryTokens : List Str) (maxSnippet : Nat) : Str :=
  let lines := splitOnNl content
  let best := bestLoop queryTokens lines 0 0 0
  if best.1 = 0 then content.take maxSnippet
  else
    let start := best.2 - 3
    let stop := min lines.length (best.2 + 8)
    (joinNl ((lines.take stop).drop start)).take maxSnippet

/-- A transient search result `{source, content, score}`. -/
structure SearchResult where
  source : Str
  content : Str
  score : Nat
deriving DecidableEq

/-- The filesystem state read by the search engine. -/
structure Store where
  readDoc : String → Str
  snaps : List (Str × Str)
  snapsDirExists : Bool

/-- `MEMORY_FILES` (memory.py:10). -/
def MEMORY_FILES : List String :=
  ["decisions.md", "constraints.md", "interfaces.md", "glossary.md"]

/-- Stable descending insertion by filename for
`sorted(snaps_dir.glob(...), reverse=True)`. -/
def insertNameDesc (x : Str × Str) : List (Str × Str) → List (Str × Str)
  | [] => [x]
  | y :: ys => if strLe x.1 y.1 then y :: insertNameDesc x ys else x :: y :: ys

/-- Python `sorted(..., reverse=True)` on the snapshot files, by name. -/
def sortNamesDesc (l : List (Str × Str)) : List (Str × Str) :=
  l.foldl (fun acc x => insertNameDesc x acc) []

/-- The un-sorted result accumulation of `search_memory` (search.py:44-72):
the four memory docs in enumeration order, then the three most recent
snapshots. -/
def scan_results (store : Store) (queryTokens : List Str) (tags : List Str) :
    List SearchResult :=
  let docResults := MEMORY_FILES.filterMap (fun name =>
    if tags ≠ [] && !(matches_tags name tags) then none
    else
      let content := pyStrip ((store.readDoc name).take 50000)
      if content.isEmpty then none
      else
        let score := fast_score queryTokens (lower content)
        if 0 < score then some ⟨("memory/" ++ name).toList, content, score⟩ else none)
  let snapFiles := if store.snapsDirExists then (sortNamesDesc store.snaps).take 3 else []
  let snapResults := snapFiles.filterMap (fun snap =>
    let content := pyStrip (snap.2.take 50000)
    if content.isEmpty then none
    else
      let score := fast_score queryTokens (lower content)
      if 0 < score then some ⟨"snapshots/".toList ++ snap.1, content, score⟩ else none)
  docResults ++ snapResults

/-- Stable insertion for `results.sort(key=lambda r: r["score"], reverse=True)`:
an element stays before `x` exactly when its score is at least `x`'s. -/
def insertByScore (x : SearchResult) : List SearchResult → List SearchResult
  | [] => [x]
  | y :: ys => if x.score ≤ y.score then y :: insertByScore x ys else x :: y :: ys

/-- Python's stable descending sort by score. -/
def sortByScore (l : List SearchResult) : List SearchResult :=
  l.foldl (fun acc x => insertByScore x acc) []

/-- `search_memory` (search.py:28-74). -/
def search_memory (store : Store) (query : Str) (topK : Nat) (tags : List Str) :
    List SearchResult :=
  let queryTokens := tokenize query
  if queryTokens.isEmpty then []
  else (sortByScore (scan_results store queryTokens tags)).take topK

/-- The greedy block-accumulation loop of `find_relevant_memory`
(search.py:95-102): include an entry only when it still fits, stop at the
first overflow. -/
def greedyParts (maxChars : Nat) (queryTokens : List Str) :
    List SearchResult → Nat → List Str
  | [], _ => []
  | r :: rs, chars =>
    let snippet := extract_snippet r.content queryTokens 600
    let entry := '[' :: r.source ++ ']' :: '\n' :: snippet
    if maxChars < chars + entry.length then []
    else entry :: greedyParts maxChars queryTokens rs (chars + entry.length)

/-- `find_relevant_memory` (search.py:77-103). -/
def find_relevant_memory (store : Store) (prompt : Str) (maxChars : Nat) : Str :=
  let results := search_memory store prompt 3 []
  if results.isEmpty then []
  else
    let relevant := results.filter (fun r => 2 ≤ r.score)
    if relevant.isEmpty then []
    else
      let queryTokens := tokenize prompt
      List.intercalate ['\n', '\n'] (greedyParts maxChars queryTokens relevant 0)

theorem bestLoop_all_le (queryTokens : List Str) :
    ∀ (ls : List Str) (i bs bi : Nat),
      (∀ (j : Nat) (hj : j < ls.length), lineScore queryTokens (ls.get ⟨j, hj⟩) ≤ bs) →
      bestLoop queryTokens ls i bs bi = (bs, bi) := by
  intro ls
  induction ls with
  | nil => intro i bs bi _; rfl
  | cons l ls ih =>
    intro i bs bi h
    have h0 : lineScore queryTokens l ≤ bs := h 0 (by simp)
    have hnot : ¬ bs < lineScore queryTokens l := not_lt.mpr h0
    show (if bs < lineScore queryTokens l then _ else _) = (bs, bi)
    rw [if_neg hnot]
    exact ih (i + 1) bs bi (fun j hj => h (j + 1) (by simpa using Nat.succ_lt_succ hj))

theorem bestLoop_argmax (queryTokens : List Str) :
    ∀ (ls : List Str) (i bs bi : Nat),
      (∃ j, ∃ hj : j < ls.length, bs < lineScore queryTokens (ls.get ⟨j, hj⟩)) →
      ∃ j, ∃ hj : j < ls.length,
        (bestLoop queryTokens ls i bs bi).2 = i + j ∧
        (bestLoop queryTokens ls i bs bi).1 = lineScore queryTokens (ls.get ⟨j, hj⟩) ∧
        bs < lineScore queryTokens (ls.get ⟨j, hj⟩) ∧
        (∀ (k : Nat) (hk : k < ls.length),
          lineScore queryTokens (ls.get ⟨k, hk⟩) ≤ lineScore queryTokens (ls.get ⟨j, hj⟩)) ∧
        (∀ (k : Nat) (hk : k < j),
          lineScore queryTokens (ls.get ⟨k, Nat.lt_trans hk hj⟩) <
            lineScore queryTokens (ls.get ⟨j, hj⟩)) := by
  intro ls
  induction ls with
  | nil =>
    intro i bs bi h
    obtain ⟨j, hj, _⟩ := h
    exact absurd hj (by simp)
  | cons l ls ih =>
    intro i bs bi h
    by_cases hbs : bs < lineScore queryTokens l
    · by_cases hex : ∃ j, ∃ hj : j < ls.length,
          lineScore queryTokens l < lineScore queryTokens (ls.get ⟨j, hj⟩)
      · obtain ⟨j', hj', h2, h1, hgt, hall, hfirst⟩ := ih (i + 1) (lineScore queryTokens l) i hex
        refine ⟨j' + 1, Nat.succ_lt_succ hj', ?_, ?_, ?_, ?_, ?_⟩
        · show (bestLoop queryTokens (l :: ls) i bs bi).2 = i + (j' + 1)
          have hstep : bestLoop queryTokens (l :: ls) i bs bi =
              bestLoop queryTokens ls (i + 1) (lineScore queryTokens l) i := by
            show (if bs < lineScore queryTokens l then _ else _) = _
            rw [if_pos hbs]
          rw [hstep, h2]
          omega
        · have hstep : bestLoop queryTokens (l :: ls) i bs bi =
              bestLoop queryTokens ls (i + 1) (lineScore queryTokens l) i := by
            show (if bs < lineScore queryTokens l then _ else _) = _
            rw [if_pos hbs]
          rw [hstep, h1]
          simp
        · simpa using Nat.lt_trans hbs hgt
        · intro k hk
          cases k with
          | zero => simpa using le_of_lt hgt
          | succ k' =>
            have hk' : k' < ls.length := by simpa using Nat.lt_of_succ_lt_succ hk
            simpa using hall k' hk'
        · intro k hk
          cases k with
          | zero => simpa using hgt
          | succ k' =>
            have hk' : k' < j' := Nat.lt_of_succ_lt_succ hk
            simpa using hfirst k' hk'
      · push_neg at hex
        have hall' : ∀ (j : Nat) (hj : j < ls.length),
            lineScore queryTokens (ls.get ⟨j, hj⟩) ≤ lineScore queryTokens l := hex
        have hres : bestLoop queryTokens (l :: ls) i bs bi = (lineScore queryTokens l, i) := by
          show (if bs < lineScore queryTokens l then _ else _) = _
          rw [if_pos hbs]
          exact bestLoop_all_le queryTokens ls (i + 1) (lineScore queryTokens l) i hall'
        refine ⟨0, by simp, ?_, ?_, by simpa using hbs, ?_, ?_⟩
        · rw [hres]; simp
        · rw [hres]; simp
        · intro k hk
          cases k with
          | zero => simp
          | succ k' =>
            have hk' : k' < ls.length := by simpa using Nat.lt_of_succ_lt_succ hk
            simpa using hall' k' hk'
        · intro k hk; exact absurd hk (by omega)
    · have hstep : bestLoop queryTokens (l :: ls) i bs bi =
          bestLoop queryTokens ls (i + 1) bs bi := by
        show (if bs < lineScore queryTokens l then _ else _) = _
        rw [if_neg hbs]
      obtain ⟨j, hj, hgt⟩ := h
      have hex : ∃ j, ∃ hj : j < ls.length, bs < lineScore queryTokens (ls.get ⟨j, hj⟩) := by
        cases j with
        | zero => exact absurd (by simpa using hgt) hbs
        | succ j' =>
          have hj' : j' < ls.length := by simpa using Nat.lt_of_succ_lt_succ hj
          exact ⟨j', hj', by simpa using hgt⟩
      obtain ⟨j', hj', h2, h1, hgt', hall, hfirst⟩ := ih (i + 1) bs bi hex
      refine ⟨j' + 1, Nat.succ_lt_succ hj', ?_, ?_, by simpa using hgt', ?_, ?_⟩
      · rw [hstep, h2]; omega
      · rw [hstep, h1]; simp
      · intro k hk
        cases k with
        | zero =>
          have : lineScore queryTokens l ≤ bs := not_lt.mp hbs
          simpa using le_of_lt (Nat.lt_of_le_of_lt this hgt')
        | succ k' =>
          have hk' : k' < ls.length := by simpa using Nat.lt_of_succ_lt_succ hk
          simpa using hall k' hk'
      · intro k hk
        cases k with
        | zero =>
          have : lineScore queryTokens l ≤ bs := not_lt.mp hbs
          simpa using Nat.lt_of_le_of_lt this hgt'
        | succ k' =>
          have hk' : k' < j' := Nat.lt_of_succ_lt_succ hk
          simpa using hfirst k' hk'

/-- C3: in `_extract_snippet`, when no line scores above zero the snippet is
the first `m` characters of the content; when some line has a positive
per-line token-containment score, the snippet is the window of lines with
indices in `[b-3, b+8)` (clipped to the document's bounds) around the
best-scoring line `b` — ties going to the earliest such line — joined with
newlines and capped at `m` characters (`m = 600` at the call site). -/
theorem extract_snippet_spec (content : Str) (queryTokens : List Str) (m : Nat) :
    ((∀ l ∈ splitOnNl content, lineScore queryTokens l = 0) →
      extract_snippet content queryTokens m = content.take m) ∧
    ((∃ l ∈ splitOnNl content, 0 < lineScore queryTokens l) →
      ∃ b, ∃ hb : b < (splitOnNl content).length,
        0 < lineScore queryTokens ((splitOnNl content).get ⟨b, hb⟩) ∧
        (∀ (k : Nat) (hk : k < (splitOnNl content).length),
          lineScore queryTokens ((splitOnNl content).get ⟨k, hk⟩) ≤
            lineScore queryTokens ((splitOnNl content).get ⟨b, hb⟩)) ∧
        (∀ (k : Nat) (hk : k < b),
          lineScore queryTokens ((splitOnNl content).get ⟨k, Nat.lt_trans hk hb⟩) <
            lineScore queryTokens ((splitOnNl content).get ⟨b, hb⟩)) ∧
        extract_snippet content queryTokens m =
          (joinNl (((splitOnNl content).take
            (min (splitOnNl content).length (b + 8))).drop (b - 3))).take m) := by
  constructor
  · intro h
    have hres : bestLoop queryTokens (splitOnNl content) 0 0 0 = (0, 0) := by
      apply bestLoop_all_le
      intro j hj
      exact le_of_eq (h _ (List.get_mem _ j hj))
    simp [extract_snippet, hres]
  · intro h
    obtain ⟨l, hl, hpos⟩ := h
    obtain ⟨n, hn⟩ := List.mem_iff_get.mp hl
    have hex : ∃ j, ∃ hj : j < (splitOnNl content).length,
        0 < lineScore queryTokens ((splitOnNl content).get ⟨j, hj⟩) := by
      exact ⟨n.1, n.2, by rw [show (⟨n.1, n.2⟩ : Fin _) = n from rfl, hn]; exact hpos⟩
    obtain ⟨b, hb, h2, h1, hgt, hall, hfirst⟩ :=
      bestLoop_argmax queryTokens (splitOnNl content) 0 0 0 hex
    refine ⟨b, hb, hgt, hall, hfirst, ?_⟩
    have hp : bestLoop queryTokens (splitOnNl content) 0 0 0 =
        (lineScore queryTokens ((splitOnNl content).get ⟨b, hb⟩), b) :=
      Prod.ext_iff.mpr ⟨h1, by rw [h2]; omega⟩
    simp [extract_snippet, hp, hgt.ne']
    intro hzero
    exact absurd hzero (by simpa using hgt.ne')

/-- C3 witness: a content with a positive-scoring line gets the clipped
window, and a content with no scoring line gets its first 600 characters. -/
theorem extract_snippet_spec_witness :
    extract_snippet "abc\ndef".toList ["zzz".toList] 600 = "abc\ndef".toList.take 600 ∧
    (∃ b, ∃ hb : b < (splitOnNl "key\nx".toList).length,
      0 < lineScore ["key".toList] ((splitOnNl "key\nx".toList).get ⟨b, hb⟩) ∧
      (∀ (k : Nat) (hk : k < (splitOnNl "key\nx".toList).length),
        lineScore ["key".toList] ((splitOnNl "key\nx".toList).get ⟨k, hk⟩) ≤
          lineScore ["key".toList] ((splitOnNl "key\nx".toList).get ⟨b, hb⟩)) ∧
      (∀ (k : Nat) (hk : k < b),
        lineScore ["key".toList] ((splitOnNl "key\nx".toList).get ⟨k, Nat.lt_trans hk hb⟩) <
          lineScore ["key".toList] ((splitOnNl "key\nx".toList).get ⟨b, hb⟩)) ∧
      extract_snippet "key\nx".toList ["key".toList] 600 =
        (joinNl (((splitOnNl "key\nx".toList).take
          (min (splitOnNl "key\nx".toList).length (b + 8))).drop (b - 3))).take 600) :=
  ⟨(extract_snippet_spec "abc\ndef".toList ["zzz".toList] 600).1 (by decide),
   (extract_snippet_spec "key\nx".toList ["key".toList] 600).2 (by decide)⟩

theorem mem_insertByScore (x y : SearchResult) :
    ∀ l : List SearchResult, y ∈ insertByScore x l ↔ y = x ∨ y ∈ l := by
  intro l
  induction l with
  | nil => simp [insertByScore]
  | cons z zs ih =>
    by_cases h : x.score ≤ z.score
    · simp only [insertByScore, if_pos h, List.mem_cons, ih]
      try tauto
    · simp only [insertByScore, if_neg h, List.mem_cons]
      try tauto

theorem insertByScore_pairwise (x : SearchResult) :
    ∀ l : List SearchResult, l.Pairwise (fun a b => b.score ≤ a.score) →
      (insertByScore x l).Pairwise (fun a b => b.score ≤ a.score) := by
  intro l
  induction l with
  | nil => intro _; simp [insertByScore]
  | cons z zs ih =>
    intro h
    rw [List.pairwise_cons] at h
    by_cases hle : x.score ≤ z.score
    · rw [insertByScore, if_pos hle, List.pairwise_cons]
      refine ⟨?_, ih h.2⟩
      intro a ha
      rcases (mem_insertByScore x a zs).mp ha with rfl | ha'
      · exact hle
      · exact h.1 a ha'
    · rw [insertByScore, if_neg hle, List.pairwise_cons]
      refine ⟨?_, List.pairwise_cons.mpr h⟩
      intro a ha
      rcases List.mem_cons.mp ha with rfl | ha'
      · exact le_of_lt (not_le.mp hle)
      · exact le_trans (h.1 a ha') (le_of_lt (not_le.mp hle))

theorem sortByScore_pairwise (l : List SearchResult) :
    (sortByScore l).Pairwise (fun a b => b.score ≤ a.score) := by
  suffices h : ∀ (acc : List SearchResult),
      acc.Pairwise (fun a b => b.score ≤ a.score) →
      (l.foldl (fun acc x => insertByScore x acc) acc).Pairwise
        (fun a b => b.score ≤ a.score) by
    exact h [] (by simp)
  induction l with
  | nil => intro acc hacc; simpa using hacc
  | cons r rs ih =>
    intro acc hacc
    exact ih _ (insertByScore_pairwise r acc hacc)

theorem mem_sortByScore (y : SearchResult) (l : List SearchResult) :
    y ∈ sortByScore l ↔ y ∈ l := by
  suffices h : ∀ (acc : List SearchResult),
      y ∈ l.foldl (fun acc x => insertByScore x acc) acc ↔ y ∈ l ∨ y ∈ acc by
    simpa using h []
  induction l with
  | nil => intro acc; simp
  | cons r rs ih =>
    intro acc
    rw [List.foldl_cons, ih (insertByScore r acc), mem_insertByScore]
    simp only [List.mem_cons]
    tauto

theorem filter_insertByScore (x : SearchResult) (c : Nat) :
    ∀ l : List SearchResult, l.Pairwise (fun a b => b.score ≤ a.score) →
      (insertByScore x l).filter (fun r => r.score = c) =
        if x.score = c then (l.filter (fun r => r.score = c)) ++ [x]
        else l.filter (fun r => r.score = c) := by
  intro l
  induction l with
  | nil =>
    intro _
    by_cases h : x.score = c <;> simp [insertByScore, List.filter, h]
  | cons z zs ih =>
    intro hp
    rw [List.pairwise_cons] at hp
    by_cases hle : x.score ≤ z.score
    · rw [insertByScore, if_pos hle, List.filter_cons, ih hp.2, List.filter_cons]
      by_cases hz : z.score = c <;> by_cases hx : x.score = c <;> simp [hz, hx]
    · rw [insertByScore, if_neg hle, List.filter_cons]
      have hlt : z.score < x.score := not_le.mp hle
      by_cases hx : x.score = c
      · have hnone : (z :: zs).filter (fun r => r.score = c) = [] := by
          rw [List.filter_eq_nil_iff]
          intro a ha
          have hbound : a.score ≤ z.score := by
            rcases List.mem_cons.mp ha with rfl | ha'
            · exact le_refl _
            · exact hp.1 a ha'
          simp only [decide_eq_true_eq]
          omega
        simp [hx, hnone]
      · simp [hx]

theorem filter_sortByScore (c : Nat) (l : List SearchResult) :
    (sortByScore l).filter (fun r => r.score = c) = l.filter (fun r => r.score = c) := by
  induction l using List.reverseRecOn with
  | nil => simp [sortByScore]
  | append_singleton rs r ih =>
    have hstep : sortByScore (rs ++ [r]) = insertByScore r (sortByScore rs) := by
      simp [sortByScore, List.foldl_append]
    rw [hstep, filter_insertByScore r c (sortByScore rs) (sortByScore_pairwise rs), ih,
      List.filter_append]
    by_cases hx : r.score = c <;> simp [hx]

theorem mem_insertNameDesc (x y : Str × Str) :
    ∀ l : List (Str × Str), y ∈ insertNameDesc x l ↔ y = x ∨ y ∈ l := by
  intro l
  induction l with
  | nil => simp [insertNameDesc]
  | cons z zs ih =>
    by_cases h : strLe x.1 z.1
    · simp only [insertNameDesc, if_pos h, List.mem_cons, ih]
      try tauto
    · simp only [insertNameDesc, if_neg h, List.mem_cons]
      try tauto

theorem mem_sortNamesDesc (y : Str × Str) (l : List (Str × Str)) :
    y ∈ sortNamesDesc l ↔ y ∈ l := by
  suffices h : ∀ (acc : List (Str × Str)),
      y ∈ l.foldl (fun acc x => insertNameDesc x acc) acc ↔ y ∈ l ∨ y ∈ acc by
    simpa using h []
  induction l with
  | nil => intro acc; simp
  | cons r rs ih =>
    intro acc
    rw [List.foldl_cons, ih (insertNameDesc r acc), mem_insertNameDesc]
    simp only [List.mem_cons]
    tauto

/-- Every accumulated result has a positive score. -/
theorem scan_results_pos (store : Store) (queryTokens : List Str) (tags : List Str) :
    ∀ r ∈ scan_results store queryTokens tags, 0 < r.score := by
  intro r hr
  unfold scan_results at hr
  rcases List.mem_append.mp hr with hr' | hr'
  · obtain ⟨a, -, ha⟩ := List.mem_filterMap.mp hr'
    dsimp only at ha
    split at ha
    · exact absurd ha (by simp)
    · split at ha
      · exact absurd ha (by simp)
      · split at ha
        · rename_i hpos
          obtain rfl : _ = r := Option.some.inj ha
          exact hpos
        · exact absurd ha (by simp)
  · obtain ⟨a, -, ha⟩ := List.mem_filterMap.mp hr'
    dsimp only at ha
    split at ha
    · exact absurd ha (by simp)
    · split at ha
      · rename_i hpos
        obtain rfl : _ = r := Option.some.inj ha
        exact hpos
      · exact absurd ha (by simp)

/-- With every candidate content scoring zero, nothing is accumulated. -/
theorem scan_results_eq_nil (store : Store) (queryTokens : List Str) (tags : List Str)
    (hdocs : ∀ name ∈ MEMORY_FILES,
      fast_score queryTokens (lower (pyStrip ((store.readDoc name).take 50000))) = 0)
    (hsnaps : ∀ p ∈ store.snaps,
      fast_score queryTokens (lower (pyStrip ((Prod.snd p).take 50000))) = 0) :
    scan_results store queryTokens tags = [] := by
  unfold scan_results
  rw [List.append_eq_nil]
  constructor
  · rw [List.filterMap_eq_nil_iff]
    intro name hname
    dsimp only
    split
    · rfl
    · split
      · rfl
      · rw [hdocs name hname]
        simp
  · rw [List.filterMap_eq_nil_iff]
    intro p hp
    have hp' : p ∈ store.snaps := by
      by_cases hdir : store.snapsDirExists
      · rw [if_pos hdir] at hp
        exact (mem_sortNamesDesc p store.snaps).mp (List.mem_of_mem_take hp)
      · rw [if_neg hdir] at hp
        exact absurd hp (List.not_mem_nil p)
    dsimp only
    split
    · rfl
    · rw [hsnaps p hp']
      simp

/-- C8: `search` returns `[]` for a query with no tokens and for a query none
of whose tokens occurs in any scanned source; otherwise score-0 sources are
excluded (every returned result has positive score), results are sorted by
non-increasing score, ties are kept stable in scan order (for every score
value, filtering the sorted candidate list yields exactly the candidates in
scan order — the four documents in enumeration order before the snapshots),
and the list is truncated to `topK`. -/
theorem search_memory_spec (store : Store) (query : Str) (tags : List Str) (topK : Nat) :
    (tokenize query = [] → search_memory store query topK tags = []) ∧
    ((∀ t ∈ tokenize query, ∀ name ∈ MEMORY_FILES,
        containsStr t (lower (pyStrip ((store.readDoc name).take 50000))) = false) →
      (∀ t ∈ tokenize query, ∀ p ∈ store.snaps,
        containsStr t (lower (pyStrip ((Prod.snd p).take 50000))) = false) →
      search_memory store query topK tags = []) ∧
    (search_memory store query topK tags).Pairwise (fun a b => b.score ≤ a.score) ∧
    (search_memory store query topK tags).length ≤ topK ∧
    (∀ r ∈ search_memory store query topK tags, 0 < r.score) ∧
    search_memory store query topK tags =
      (if (tokenize query).isEmpty then []
       else (sortByScore (scan_results store (tokenize query) tags)).take topK) ∧
    (∀ c : Nat,
      (sortByScore (scan_results store (tokenize query) tags)).filter (fun r => r.score = c) =
        (scan_results store (tokenize query) tags).filter (fun r => r.score = c)) := by
  refine ⟨?_, ?_, ?_, ?_, ?_, rfl, fun c => filter_sortByScore c _⟩
  · intro h
    simp [search_memory, h]
  · intro hdocs hsnaps
    have hnil : scan_results store (tokenize query) tags = [] := by
      apply scan_results_eq_nil
      · intro name hname
        rw [fast_score, List.countP_eq_zero]
        intro t ht
        simp [hdocs t ht name hname]
      · intro p hp
        rw [fast_score, List.countP_eq_zero]
        intro t ht
        simp [hsnaps t ht p hp]
    by_cases hq : (tokenize query).isEmpty
    · simp [search_memory, hq]
    · simp [search_memory, hq, hnil, sortByScore]
  · by_cases hq : (tokenize query).isEmpty
    · simp [search_memory, hq]
    · simp only [search_memory, hq, if_false, Bool.false_eq_true]
      exact (sortByScore_pairwise _).sublist (List.take_sublist _ _)
  · by_cases hq : (tokenize query).isEmpty
    · simp [search_memory, hq]
    · simp only [search_memory, hq, if_false, Bool.false_eq_true]
      rw [List.length_take]
      exact Nat.min_le_left _ _
  · intro r hr
    by_cases hq : (tokenize query).isEmpty
    · simp [search_memory, hq] at hr
    · simp only [search_memory, hq, if_false, Bool.false_eq_true] at hr
      exact scan_results_pos store (tokenize query) tags r
        ((mem_sortByScore r _).mp (List.mem_of_mem_take hr))

/-- C8 witness: the empty query and a query matching nothing both return `[]`
on a concrete store. -/
theorem search_memory_spec_witness :
    search_memory
      ⟨fun _ => "# Decisions\n\n- Use Redis for caching\n".toList,
       [("a_continuity.md".toList, "alpha beta".toList)], true⟩
      [] 5 [] = [] ∧
    search_memory
      ⟨fun _ => "# Decisions\n\n- Use Redis for caching\n".toList,
       [("a_continuity.md".toList, "alpha beta".toList)], true⟩
      "qqqq".toList 5 [] = [] := by
  constructor
  · exact (search_memory_spec
      ⟨fun _ => "# Decisions\n\n- Use Redis for caching\n".toList,
       [("a_continuity.md".toList, "alpha beta".toList)], true⟩ [] [] 5).1 (by decide)
  · exact (search_memory_spec
      ⟨fun _ => "# Decisions\n\n- Use Redis for caching\n".toList,
       [("a_continuity.md".toList, "alpha beta".toList)], true⟩ "qqqq".toList [] 5).2.1
      (by decide) (by decide)

theorem greedyParts_length_le (maxChars : Nat) (queryTokens : List Str) :
    ∀ (rs : List SearchResult) (chars : Nat),
      (greedyParts maxChars queryTokens rs chars).length ≤ rs.length := by
  intro rs
  induction rs with
  | nil => intro chars; simp [greedyParts]
  | cons r rs ih =>
    intro chars
    rw [greedyParts]
    split
    · simp
    · simpa using Nat.succ_le_succ (ih _)

theorem greedyParts_sum (maxChars : Nat) (queryTokens : List Str) :
    ∀ (rs : List SearchResult) (chars : Nat),
      greedyParts maxChars queryTokens rs chars = [] ∨
      ((greedyParts maxChars queryTokens rs chars).map List.length).sum + chars ≤ maxChars := by
  intro rs
  induction rs with
  | nil => intro chars; exact Or.inl rfl
  | cons r rs ih =>
    intro chars
    rw [greedyParts]
    split
    · exact Or.inl rfl
    · rename_i hfit
      right
      have hfit' : chars +
          ('[' :: r.source ++ ']' :: '\n' ::
            extract_snippet r.content queryTokens 600).length ≤ maxChars :=
        not_lt.mp hfit
      rcases ih (chars +
          ('[' :: r.source ++ ']' :: '\n' ::
            extract_snippet r.content queryTokens 600).length) with hnil | hsum
      · rw [hnil]
        simp only [List.map_cons, List.map_nil, List.sum_cons, List.sum_nil]
        omega
      · simp only [List.map_cons, List.sum_cons]
        omega

theorem length_intercalate_blank : ∀ xs : List Str,
    (List.intercalate ['\n', '\n'] xs).length =
      (xs.map List.length).sum + 2 * (xs.length - 1) := by
  intro xs
  induction xs with
  | nil => simp [List.intercalate]
  | cons x xs ih =>
    cases xs with
    | nil => simp [List.intercalate]
    | cons y rest =>
      have hcc : List.intercalate ['\n', '\n'] (x :: y :: rest) =
          x ++ ['\n', '\n'] ++ List.intercalate ['\n', '\n'] (y :: rest) := by
        simp [List.intercalate, List.intersperse]
      rw [hcc, List.length_append, List.length_append, ih]
      simp only [List.map_cons, List.sum_cons, List.length_cons, List.length_nil]
      omega

/-- C5: `findRelevant` returns the empty string when no search result scores
at least 2; otherwise it is the `"[source]\nsnippet"` blocks of the
threshold-passing results in ranked order, joined by blank lines, greedily
including each candidate only while it fits and stopping at the first
overflow; consequently its length never exceeds `maxChars` plus the fixed
overhead of the blank-line separators between at most three entries
(`2 * 2 = 4` characters). -/
theorem find_relevant_memory_spec (store : Store) (prompt : Str) (maxChars : Nat) :
    ((∀ r ∈ search_memory store prompt 3 [], r.score < 2) →
      find_relevant_memory store prompt maxChars = []) ∧
    (find_relevant_memory store prompt maxChars).length ≤ maxChars + 4 ∧
    find_relevant_memory store prompt maxChars =
      List.intercalate ['\n', '\n']
        (greedyParts maxChars (tokenize prompt)
          ((search_memory store prompt 3 []).filter (fun r => 2 ≤ r.score)) 0) := by
  have heq : find_relevant_memory store prompt maxChars =
      List.intercalate ['\n', '\n']
        (greedyParts maxChars (tokenize prompt)
          ((search_memory store prompt 3 []).filter (fun r => 2 ≤ r.score)) 0) := by
    unfold find_relevant_memory
    by_cases h1 : (search_memory store prompt 3 []).isEmpty
    · rw [if_pos h1]
      rw [List.isEmpty_iff] at h1
      rw [h1]
      rfl
    · rw [if_neg h1]
      by_cases h2 : ((search_memory store prompt 3 []).filter (fun r => 2 ≤ r.score)).isEmpty
      · rw [if_pos h2]
        rw [List.isEmpty_iff] at h2
        rw [h2]
        rfl
      · rw [if_neg h2]
  refine ⟨?_, ?_, heq⟩
  · intro h
    rw [heq]
    have hfil : (search_memory store prompt 3 []).filter (fun r => 2 ≤ r.score) = [] := by
      rw [List.filter_eq_nil_iff]
      intro r hr
      simp only [decide_eq_true_eq]
      exact not_le.mpr (h r hr)
    rw [hfil]
    rfl
  · rw [heq]
    have hres3 : (search_memory store prompt 3 []).length ≤ 3 :=
      (search_memory_spec store prompt [] 3).2.2.2.1
    have hrel3 : ((search_memory store prompt 3 []).filter (fun r => 2 ≤ r.score)).length ≤ 3 :=
      le_trans (List.length_filter_le _ _) hres3
    have hparts3 : (greedyParts maxChars (tokenize prompt)
        ((search_memory store prompt 3 []).filter (fun r => 2 ≤ r.score)) 0).length ≤ 3 :=
      le_trans (greedyParts_length_le maxChars (tokenize prompt) _ 0) hrel3
    rcases greedyParts_sum maxChars (tokenize prompt)
        ((search_memory store prompt 3 []).filter (fun r => 2 ≤ r.score)) 0 with hnil | hsum
    · rw [hnil]
      simp [List.intercalate]
    · rw [length_intercalate_blank]
      omega

/-- C5 witness: a store whose best match scores only 1 yields the empty
string. -/
theorem find_relevant_memory_spec_witness :
    find_relevant_memory
      ⟨fun _ => "# Notes\n\nalpha\n".toList, [], false⟩ "alpha beta".toList 2000 = [] :=
  (find_relevant_memory_spec ⟨fun _ => "# Notes\n\nalpha\n".toList, [], false⟩
    "alpha beta".toList 2000).1 (by decide)

theorem splitOnNl_ne_nil : ∀ s : Str, splitOnNl s ≠ [] := by
  intro s
  induction s with
  | nil => simp [splitOnNl]
  | cons c rest ih =>
    by_cases hc : c = '\n'
    · simp [splitOnNl, hc]
    · simp only [splitOnNl, if_neg hc]
      cases hsp : splitOnNl rest with
      | nil => simp
      | cons l ls => simp

theorem splitOnNl_append_newline :
    ∀ a b : Str, splitOnNl (a ++ '\n' :: b) = splitOnNl a ++ splitOnNl b := by
  intro a b
  induction a with
  | nil => simp [splitOnNl]
  | cons c rest ih =>
    by_cases hc : c = '\n'
    · subst hc
      show splitOnNl ('\n' :: (rest ++ '\n' :: b)) = splitOnNl ('\n' :: rest) ++ splitOnNl b
      simp [splitOnNl, ih]
    · show splitOnNl (c :: (rest ++ '\n' :: b)) = splitOnNl (c :: rest) ++ splitOnNl b
      simp only [splitOnNl, if_neg hc, ih]
      cases hsp : splitOnNl rest with
      | nil => exact absurd hsp (splitOnNl_ne_nil rest)
      | cons l ls => simp

theorem splitOnNl_eq_single (s : Str) (h : '\n' ∉ s) : splitOnNl s = [s] := by
  induction s with
  | nil => rfl
  | cons c rest ih =>
    have hc : ¬ c = '\n' := fun hh => h (by simp [hh])
    have hrest : '\n' ∉ rest := fun hh => h (by simp [hh])
    simp only [splitOnNl, if_neg hc, ih hrest]

theorem splitOnNl_joinNl :
    ∀ (x : Str) (xs : List Str),
      splitOnNl (joinNl (x :: xs)) = splitOnNl x ++ (xs.map splitOnNl).flatten := by
  intro x xs
  induction xs generalizing x with
  | nil => simp [joinNl, List.intercalate]
  | cons y rest ih =>
    have hjoin : joinNl (x :: y :: rest) = x ++ '\n' :: joinNl (y :: rest) := by
      show List.intercalate ['\n'] (x :: y :: rest) = _
      simp [List.intercalate, List.intersperse, joinNl]
    rw [hjoin, splitOnNl_append_newline, ih y]
    simp

/-- Membership of a newline-free element of `xs` in the line list of the
joined text. -/
theorem mem_splitOnNl_joinNl (xs : List Str) (l : Str) (hl : l ∈ xs) (hnl : '\n' ∉ l) :
    l ∈ splitOnNl (joinNl xs) := by
  cases xs with
  | nil => exact absurd hl (List.not_mem_nil l)
  | cons x rest =>
    rw [splitOnNl_joinNl x rest]
    rcases List.mem_cons.mp hl with rfl | hl'
    · rw [splitOnNl_eq_single l hnl]
      simp
    · apply List.mem_append_right
      rw [List.mem_flatten]
      exact ⟨splitOnNl l, List.mem_map_of_mem splitOnNl hl',
        by rw [splitOnNl_eq_single l hnl]; simp⟩

end Search

section SnapshotText
/-!
### `build_snapshot_text` (`src/cccm/core/snapshot.py:20-61`)

The reads performed by the builder appear as inputs: `root` (as a string, the
`str(root)` fallback for `cwd`), the memory summary (`summarize_memory`'s
result), the index's `recent_files`, and the UTC timestamp.  `hook_input` is
modelled as three optional fields — `None`/missing key both appear as
`none` (`hook_input or {}` makes them equivalent in the source). -/

/-- The keys of `hook_input` read by `build_snapshot_text`. -/
structure HookInput where
  session_id : Option Str
  cwd : Option Str
  transcript_path : Option Str

/-- The `lines` list assembled by `build_snapshot_text` (snapshot.py:34-59):
five header lines, the transcript line only when `transcript_path` is truthy,
then the fixed tail with the recent-files block and the memory block. -/
def build_snapshot_lines (root mem : Str) (rf : List Str) (ts : Str) (hook : HookInput) :
    List Str :=
  (["# CCCM Continuity Packet".toList, [],
    "- Timestamp (UTC): ".toList ++ ts,
    "- Session: ".toList ++ hook.session_id.getD "manual".toList,
    "- CWD: ".toList ++ hook.cwd.getD root] ++
   (if (hook.transcript_path.getD []).isEmpty then []
    else ["- Transcript: ".toList ++ hook.transcript_path.getD []])) ++
  [[], "## What to preserve through compaction".toList,
   "- Current objective and next steps (from user prompt)".toList,
   "- Decisions + constraints in .cccm/memory/*".toList,
   "- Interfaces/APIs noted in interfaces.md".toList,
   "- Recent files touched (below)".toList,
   [], "## Recent files touched".toList,
   (if (rf.take 20).isEmpty then "- (none tracked yet)".toList
    else joinNl ((rf.take 20).map (fun p => "- ".toList ++ p))),
   [], "## Project memory (authoritative)".toList,
   (if mem.isEmpty then "_(memory docs empty — populate .cccm/memory/*.md)_".toList
    else mem)]

/-- `build_snapshot_text`: the packet is the lines joined with newlines. -/
def build_snapshot_text (root mem : Str) (rf : List Str) (ts : Str) (hook : HookInput) :
    Str :=
  joinNl (build_snapshot_lines root mem rf ts hook)

/-- C4 counterexample: with `session_id` and `cwd` absent from the hook
context, the packet still contains a `- Session:` line (with the default
`manual`) and a `- CWD:` line (with the root fallback) — the claim says those
field lines should not appear when their keys are absent. -/
theorem build_snapshot_text_emits_session_without_key :
    "- Session: manual".toList ∈
      splitOnNl (build_snapshot_text "/proj".toList [] []
        "2025-01-01T00-00-00-000000Z".toList ⟨none, none, none⟩) ∧
    "- CWD: /proj".toList ∈
      splitOnNl (build_snapshot_text "/proj".toList [] []
        "2025-01-01T00-00-00-000000Z".toList ⟨none, none, none⟩) := by
  constructor <;> decide

/-- A newline-free line whose filter test fails contributes nothing. -/
theorem filter_single_piece (p : Str → Bool) (l : Str) (hnl : '\n' ∉ l)
    (hp : p l = false) : (splitOnNl l).filter p = [] := by
  rw [splitOnNl_eq_single l hnl]
  simp [hp]

/-- A newline-free line whose filter test holds contributes itself. -/
theorem filter_single_piece_pos (p : Str → Bool) (l : Str) (hnl : '\n' ∉ l)
    (hp : p l = true) : (splitOnNl l).filter p = [l] := by
  rw [splitOnNl_eq_single l hnl]
  simp [hp]

/-- Filtering the lines of joined text piece by piece. -/
theorem filter_splitOnNl_joinNl (p : Str → Bool) (x : Str) (xs : List Str) :
    (splitOnNl (joinNl (x :: xs))).filter p =
      ((x :: xs).map (fun l => (splitOnNl l).filter p)).flatten := by
  rw [splitOnNl_joinNl, List.filter_append, List.filter_flatten]
  simp only [List.map_cons, List.flatten_cons, List.map_map]
  rfl

/-- Joined newline-free lines all failing the filter test contribute nothing. -/
theorem filter_splitOnNl_joinNl_nil (p : Str → Bool) (hpnil : p [] = false) :
    ∀ xs : List Str, (∀ l ∈ xs, '\n' ∉ l ∧ p l = false) →
      (splitOnNl (joinNl xs)).filter p = [] := by
  intro xs
  induction xs with
  | nil =>
    intro _
    show (splitOnNl (List.intercalate ['\n'] [])).filter p = []
    simp [List.intercalate, splitOnNl, hpnil]
  | cons x rest ih =>
    intro h
    cases rest with
    | nil =>
      rw [splitOnNl_joinNl]
      simp only [List.map_nil, List.flatten_nil, List.append_nil]
      exact filter_single_piece p x (h x (by simp)).1 (h x (by simp)).2
    | cons y r' =>
      rw [splitOnNl_joinNl x (y :: r'), List.filter_append,
        filter_single_piece p x (h x (by simp)).1 (h x (by simp)).2,
        List.map_cons, List.flatten_cons, ← splitOnNl_joinNl y r',
        ih (fun l hl => h l (by simp [hl]))]
      rfl

/-- C4 (amended): the session and working-directory field lines are ALWAYS
emitted — with the fallbacks `manual` and the root path when the keys are
absent from `hookContext` — and only the transcript-reference line is
conditional: the packet contains a `- Transcript: ` line exactly when
`transcript_path` is present with a non-empty value (and then exactly that
one line).  Hypotheses keep the symbolic inputs single-line and keep the body
blocks from spoofing a transcript line. -/
theorem build_snapshot_text_fields (root mem : Str) (rf : List Str) (ts : Str)
    (hook : HookInput)
    (hts : '\n' ∉ ts) (hroot : '\n' ∉ root)
    (hsess : ∀ s, hook.session_id = some s → '\n' ∉ s)
    (hcwd : ∀ s, hook.cwd = some s → '\n' ∉ s)
    (htr : ∀ s, hook.transcript_path = some s → '\n' ∉ s)
    (hmem : ∀ l ∈ splitOnNl mem, "- Transcript: ".toList.isPrefixOf l = false)
    (hrf : ∀ q ∈ rf, '\n' ∉ q ∧ "Transcript: ".toList.isPrefixOf q = false) :
    ("- Session: ".toList ++ hook.session_id.getD "manual".toList) ∈
      splitOnNl (build_snapshot_text root mem rf ts hook) ∧
    ("- CWD: ".toList ++ hook.cwd.getD root) ∈
      splitOnNl (build_snapshot_text root mem rf ts hook) ∧
    (splitOnNl (build_snapshot_text root mem rf ts hook)).filter
        (fun l => "- Transcript: ".toList.isPrefixOf l) =
      (if (hook.transcript_path.getD []).isEmpty then []
       else ["- Transcript: ".toList ++ hook.transcript_path.getD []]) := by
  have hsessnl : '\n' ∉ ("- Session: ".toList ++ hook.session_id.getD "manual".toList) := by
    intro h
    rcases List.mem_append.mp h with h' | h'
    · exact absurd h' (by decide)
    · cases hs : hook.session_id with
      | none =>
        rw [hs, Option.getD_none] at h'
        exact absurd h' (by decide)
      | some s =>
        rw [hs, Option.getD_some] at h'
        exact hsess s hs h'
  have hcwdnl : '\n' ∉ ("- CWD: ".toList ++ hook.cwd.getD root) := by
    intro h
    rcases List.mem_append.mp h with h' | h'
    · exact absurd h' (by decide)
    · cases hs : hook.cwd with
      | none =>
        rw [hs, Option.getD_none] at h'
        exact hroot h'
      | some s =>
        rw [hs, Option.getD_some] at h'
        exact hcwd s hs h'
  have htsnl : '\n' ∉ ("- Timestamp (UTC): ".toList ++ ts) := by
    intro h
    rcases List.mem_append.mp h with h' | h'
    · exact absurd h' (by decide)
    · exact hts h'
  refine ⟨?_, ?_, ?_⟩
  · exact mem_splitOnNl_joinNl _ _ (by simp [build_snapshot_lines]) hsessnl
  · exact mem_splitOnNl_joinNl _ _ (by simp [build_snapshot_lines]) hcwdnl
  · have hfb : (splitOnNl (if (rf.take 20).isEmpty then "- (none tracked yet)".toList
        else joinNl ((rf.take 20).map (fun p => "- ".toList ++ p)))).filter
          (fun l => "- Transcript: ".toList.isPrefixOf l) = [] := by
      by_cases hrfE : (rf.take 20).isEmpty
      · rw [if_pos hrfE]
        decide
      · rw [if_neg hrfE]
        apply filter_splitOnNl_joinNl_nil _ (by decide)
        intro l hl
        obtain ⟨q, hq, rfl⟩ := List.mem_map.mp hl
        have hq' : q ∈ rf := List.mem_of_mem_take hq
        constructor
        · intro hmemnl
          rcases List.mem_append.mp hmemnl with h' | h'
          · exact absurd h' (by decide)
          · exact (hrf q hq').1 h'
        · exact (hrf q hq').2
    have hmb : (splitOnNl (if mem.isEmpty then
        "_(memory docs empty — populate .cccm/memory/*.md)_".toList else mem)).filter
          (fun l => "- Transcript: ".toList.isPrefixOf l) = [] := by
      by_cases hm : mem.isEmpty
      · rw [if_pos hm]
        decide
      · rw [if_neg hm]
        rw [List.filter_eq_nil_iff]
        intro l hl
        rw [hmem l hl]
        simp
    have e1 : (splitOnNl "# CCCM Continuity Packet".toList).filter
        (fun l => "- Transcript: ".toList.isPrefixOf l) = [] := by decide
    have e2 : (splitOnNl ([] : Str)).filter
        (fun l => "- Transcript: ".toList.isPrefixOf l) = [] := by decide
    have e7 : (splitOnNl "## What to preserve through compaction".toList).filter
        (fun l => "- Transcript: ".toList.isPrefixOf l) = [] := by decide
    have e8 : (splitOnNl "- Current objective and next steps (from user prompt)".toList).filter
        (fun l => "- Transcript: ".toList.isPrefixOf l) = [] := by decide
    have e9 : (splitOnNl "- Decisions + constraints in .cccm/memory/*".toList).filter
        (fun l => "- Transcript: ".toList.isPrefixOf l) = [] := by decide
    have e10 : (splitOnNl "- Interfaces/APIs noted in interfaces.md".toList).filter
        (fun l => "- Transcript: ".toList.isPrefixOf l) = [] := by decide
    have e11 : (splitOnNl "- Recent files touched (below)".toList).filter
        (fun l => "- Transcript: ".toList.isPrefixOf l) = [] := by decide
    have e13 : (splitOnNl "## Recent files touched".toList).filter
        (fun l => "- Transcript: ".toList.isPrefixOf l) = [] := by decide
    have e16 : (splitOnNl "## Project memory (authoritative)".toList).filter
        (fun l => "- Transcript: ".toList.isPrefixOf l) = [] := by decide
    have e3 : (splitOnNl ("- Timestamp (UTC): ".toList ++ ts)).filter
        (fun l => "- Transcript: ".toList.isPrefixOf l) = [] :=
      filter_single_piece _ _ htsnl rfl
    have e4 : (splitOnNl ("- Session: ".toList ++ hook.session_id.getD "manual".toList)).filter
        (fun l => "- Transcript: ".toList.isPrefixOf l) = [] :=
      filter_single_piece _ _ hsessnl rfl
    have e5 : (splitOnNl ("- CWD: ".toList ++ hook.cwd.getD root)).filter
        (fun l => "- Transcript: ".toList.isPrefixOf l) = [] :=
      filter_single_piece _ _ hcwdnl rfl
    by_cases ht : (hook.transcript_path.getD []).isEmpty
    · have hlines : build_snapshot_lines root mem rf ts hook =
          ["# CCCM Continuity Packet".toList, [],
           "- Timestamp (UTC): ".toList ++ ts,
           "- Session: ".toList ++ hook.session_id.getD "manual".toList,
           "- CWD: ".toList ++ hook.cwd.getD root,
           [], "## What to preserve through compaction".toList,
           "- Current objective and next steps (from user prompt)".toList,
           "- Decisions + constraints in .cccm/memory/*".toList,
           "- Interfaces/APIs noted in interfaces.md".toList,
           "- Recent files touched (below)".toList,
           [], "## Recent files touched".toList,
           (if (rf.take 20).isEmpty then "- (none tracked yet)".toList
            else joinNl ((rf.take 20).map (fun p => "- ".toList ++ p))),
           [], "## Project memory (authoritative)".toList,
           (if mem.isEmpty then "_(memory docs empty — populate .cccm/memory/*.md)_".toList
            else mem)] := by
        simp [build_snapshot_lines, ht]
      rw [build_snapshot_text, hlines, filter_splitOnNl_joinNl, if_pos ht]
      simp only [List.map_cons, List.map_nil, List.flatten_cons, List.flatten_nil,
        e1, e2, e3, e4, e5, e7, e8, e9, e10, e11, e13, e16, hfb, hmb,
        List.nil_append, List.append_nil]
    · have htrsome : ∃ s, hook.transcript_path = some s ∧ s = hook.transcript_path.getD [] := by
        cases hs : hook.transcript_path with
        | none => exact absurd (by simp [hs]) ht
        | some s => exact ⟨s, rfl, by simp⟩
      obtain ⟨s, hs, hsval⟩ := htrsome
      have htrnl : '\n' ∉ ("- Transcript: ".toList ++ hook.transcript_path.getD []) := by
        intro h
        rcases List.mem_append.mp h with h' | h'
        · exact absurd h' (by decide)
        · rw [← hsval] at h'
          exact htr s hs h'
      have etr : (splitOnNl ("- Transcript: ".toList ++ hook.transcript_path.getD [])).filter
          (fun l => "- Transcript: ".toList.isPrefixOf l) =
            ["- Transcript: ".toList ++ hook.transcript_path.getD []] :=
        filter_single_piece_pos _ _ htrnl
          ((isPrefixOf_eq_true_iff _ _).mpr ⟨hook.transcript_path.getD [], rfl⟩)
      have hlines : build_snapshot_lines root mem rf ts hook =
          ["# CCCM Continuity Packet".toList, [],
           "- Timestamp (UTC): ".toList ++ ts,
           "- Session: ".toList ++ hook.session_id.getD "manual".toList,
           "- CWD: ".toList ++ hook.cwd.getD root,
           "- Transcript: ".toList ++ hook.transcript_path.getD [],
           [], "## What to preserve through compaction".toList,
           "- Current objective and next steps (from user prompt)".toList,
           "- Decisions + constraints in .cccm/memory/*".toList,
           "- Interfaces/APIs noted in interfaces.md".toList,
           "- Recent files touched (below)".toList,
           [], "## Recent files touched".toList,
           (if (rf.take 20).isEmpty then "- (none tracked yet)".toList
            else joinNl ((rf.take 20).map (fun p => "- ".toList ++ p))),
           [], "## Project memory (authoritative)".toList,
           (if mem.isEmpty then "_(memory docs empty — populate .cccm/memory/*.md)_".toList
            else mem)] := by
        simp [build_snapshot_lines, ht]
      rw [build_snapshot_text, hlines, filter_splitOnNl_joinNl, if_neg ht]
      simp only [List.map_cons, List.map_nil, List.flatten_cons, List.flatten_nil,
        e1, e2, e3, e4, e5, e7, e8, e9, e10, e11, e13, e16, hfb, hmb, etr,
        List.nil_append, List.append_nil]

/-- C4 witness: with all three hook keys present, the packet carries the
session, CWD and exactly one transcript line. -/
theorem build_snapshot_text_fields_witness :
    "- Session: abc123".toList ∈
      splitOnNl (build_snapshot_text "/proj".toList [] []
        "2025-01-01T00-00-00-000000Z".toList
        ⟨some "abc123".toList, some "/tmp/test".toList,
         some "/tmp/transcript.json".toList⟩) ∧
    "- CWD: /tmp/test".toList ∈
      splitOnNl (build_snapshot_text "/proj".toList [] []
        "2025-01-01T00-00-00-000000Z".toList
        ⟨some "abc123".toList, some "/tmp/test".toList,
         some "/tmp/transcript.json".toList⟩) ∧
    (splitOnNl (build_snapshot_text "/proj".toList [] []
        "2025-01-01T00-00-00-000000Z".toList
        ⟨some "abc123".toList, some "/tmp/test".toList,
         some "/tmp/transcript.json".toList⟩)).filter
      (fun l => "- Transcript: ".toList.isPrefixOf l) =
        ["- Transcript: /tmp/transcript.json".toList] := by
  have h := build_snapshot_text_fields "/proj".toList [] []
    "2025-01-01T00-00-00-000000Z".toList
    ⟨some "abc123".toList, some "/tmp/test".toList, some "/tmp/transcript.json".toList⟩
    (by decide) (by decide)
    (by intro s hs; cases hs; decide)
    (by intro s hs; cases hs; decide)
    (by intro s hs; cases hs; decide)
    (by decide) (by decide)
  exact ⟨h.1, h.2.1, h.2.2⟩

end SnapshotText

section Decisions
/-!
### `append_decision` / `_prune_decisions` (`src/cccm/core/decisions.py:72-114`)

The decisions document is the string `existing` (its content after
`ensure_dirs`); the nondeterministic `utc_timestamp()` is a parameter.
`re.split(r"(?=^## )", content, flags=re.MULTILINE)` is modelled by
`splitEntries`: the document's lines are grouped into a header part and one
part per line starting with `"## "`, each part carrying its text verbatim
(so the parts concatenate back to the document).
-/

/-- A second-level heading line, where `re.split(r"(?=^## )")` cuts. -/
def isEntryLine (l : Str) : Bool := "## ".toList.isPrefixOf l

/-- Grouping loop for `splitEntries`: `cur` is the text of the current part
(already containing its inner newlines); a `"## "` line closes the current
part (whose text keeps the separating newline) and opens a new one. -/
def partsAux (cur : Str) : List Str → List Str
  | [] => [cur]
  | l :: ls =>
    if isEntryLine l then (cur ++ ['\n']) :: partsAux l ls
    else partsAux (cur ++ '\n' :: l) ls

/-- `re.split(r"(?=^## )", content, flags=re.MULTILINE)`: the zero-width
boundary before each `"## "` line; a document starting with `"## "` yields an
empty first part. -/
def splitEntries (content : Str) : List Str :=
  match splitOnNl content with
  | [] => [content]
  | l :: ls => if isEntryLine l then [] :: partsAux l ls else partsAux l ls

/-- `_prune_decisions` (decisions.py:96-114): read (capped at 500 000), split
into header and entries; rewrite only when more than 100 entries exist,
keeping the header plus the last 100. -/
def prune_decisions (fileContent : Str) : Str :=
  let content := fileContent.take 500000
  let parts := splitEntries content
  let header := parts.headD "# Decisions\n\n".toList
  let entries := parts.tail
  if entries.length ≤ 100 then fileContent
  else header ++ (entries.drop (entries.length - 100)).flatten

/-- The `"\n## {ts} — Auto-captured\n\n{summary.strip()}\n"` entry text. -/
def decisionEntry (ts trimmed : Str) : Str :=
  '\n' :: ("## ".toList ++ ts ++ " — Auto-captured".toList ++
    ('\n' :: '\n' :: (trimmed ++ ['\n'])))

/-- `append_decision` (decisions.py:72-93): read (capped at 200 000), refuse
when the first 100 characters of the trimmed summary already occur, else
append the timestamped entry and prune.  Returns the new document content and
the boolean result. -/
def append_decision (existing summary ts : Str) : Str × Bool :=
  let existingRead := existing.take 200000
  let trimmed := pyStrip summary
  if containsStr (trimmed.take 100) existingRead then (existing, false)
  else (prune_decisions (existing ++ decisionEntry ts trimmed), true)

/-- The number of entry parts of the document that are an "Auto-captured"
entry carrying the given summary text. -/
def autoEntryCount (doc trimmed : Str) : Nat :=
  ((splitEntries doc).tail.filter
    (fun e => containsStr "Auto-captured".toList e && containsStr trimmed e)).length

/-- C10: a summary whose trimmed form is empty is never recorded —
`appendDecision` returns `false` and leaves the document unchanged, because
the empty 100-character prefix is a substring of any existing content. -/
theorem append_decision_empty_summary (existing summary ts : Str)
    (h : pyStrip summary = []) :
    append_decision existing summary ts = (existing, false) := by
  unfold append_decision
  rw [h]
  simp [containsStr_nil]

/-- C10 witness. -/
theorem append_decision_empty_summary_witness :
    append_decision "# Decisions\n\n- kept\n".toList "  \n ".toList
      "2025-01-01T00-00-00-000000Z".toList =
      ("# Decisions\n\n- kept\n".toList, false) :=
  append_decision_empty_summary _ _ _ (by decide)

theorem joinNl_cons_cons (x y : Str) (ys : List Str) :
    joinNl (x :: y :: ys) = x ++ '\n' :: joinNl (y :: ys) := by
  simp [joinNl, List.intercalate, List.intersperse]

theorem joinNl_glue : ∀ (ys : List Str) (x y : Str),
    joinNl ((x ++ '\n' :: y) :: ys) = x ++ '\n' :: joinNl (y :: ys) := by
  intro ys x y
  cases ys with
  | nil => simp [joinNl, List.intercalate]
  | cons z zs =>
    rw [joinNl_cons_cons, joinNl_cons_cons]
    simp

theorem joinNl_splitOnNl : ∀ s : Str, joinNl (splitOnNl s) = s := by
  intro s
  induction s with
  | nil => rfl
  | cons c rest ih =>
    by_cases hc : c = '\n'
    · subst hc
      show joinNl (splitOnNl ('\n' :: rest)) = '\n' :: rest
      have : splitOnNl ('\n' :: rest) = [] :: splitOnNl rest := by
        simp [splitOnNl]
      rw [this]
      cases hsp : splitOnNl rest with
      | nil => exact absurd hsp (splitOnNl_ne_nil rest)
      | cons l ls =>
        rw [joinNl_cons_cons]
        rw [hsp] at ih
        rw [ih]
        rfl
    · show joinNl (splitOnNl (c :: rest)) = c :: rest
      have hstep : splitOnNl (c :: rest) =
          match splitOnNl rest with
          | [] => [[c]]
          | l :: ls => (c :: l) :: ls := by
        simp [splitOnNl, hc]
      cases hsp : splitOnNl rest with
      | nil => exact absurd hsp (splitOnNl_ne_nil rest)
      | cons l ls =>
        rw [hsp] at hstep
        rw [hstep]
        rw [hsp] at ih
        cases ls with
        | nil =>
          have hl : joinNl [l] = l := by simp [joinNl, List.intercalate]
          rw [hl] at ih
          simp [joinNl, List.intercalate, ih]
        | cons y ys =>
          rw [joinNl_cons_cons] at ih ⊢
          rw [List.cons_append, ih]

theorem partsAux_ne_nil : ∀ (ls : List Str) (cur : Str), partsAux cur ls ≠ [] := by
  intro ls
  induction ls with
  | nil => intro cur; simp [partsAux]
  | cons l ls ih =>
    intro cur
    by_cases hb : isEntryLine l
    · simp [partsAux, hb]
    · simp only [partsAux, if_neg hb]
      exact ih _

/-- Append a newline to the last part (the closing of a part at a boundary). -/
def appendNlLast : List Str → List Str
  | [] => []
  | [x] => [x ++ ['\n']]
  | x :: y :: ys => x :: appendNlLast (y :: ys)

theorem appendNlLast_cons_of_ne_nil (x : Str) (xs : List Str) (h : xs ≠ []) :
    appendNlLast (x :: xs) = x :: appendNlLast xs := by
  cases xs with
  | nil => exact absurd rfl h
  | cons y ys => rfl

theorem partsAux_flatten : ∀ (ls : List Str) (cur : Str),
    (partsAux cur ls).flatten = joinNl (cur :: ls) := by
  intro ls
  induction ls with
  | nil => intro cur; simp [partsAux, joinNl, List.intercalate]
  | cons l ls ih =>
    intro cur
    by_cases hb : isEntryLine l
    · rw [partsAux, if_pos hb, List.flatten_cons, ih l, joinNl_cons_cons]
      simp
    · rw [partsAux, if_neg hb, ih (cur ++ '\n' :: l), joinNl_glue, joinNl_cons_cons]

theorem partsAux_no_boundary : ∀ (ls : List Str) (cur : Str),
    (∀ l ∈ ls, isEntryLine l = false) → partsAux cur ls = [joinNl (cur :: ls)] := by
  intro ls
  induction ls with
  | nil => intro cur _; simp [partsAux, joinNl, List.intercalate]
  | cons l ls ih =>
    intro cur h
    have hb : ¬ isEntryLine l = true := by simp [h l (by simp)]
    rw [partsAux, if_neg hb, ih (cur ++ '\n' :: l) (fun x hx => h x (by simp [hx])),
      joinNl_glue, joinNl_cons_cons]

theorem partsAux_append_boundary :
    ∀ (xs : List Str) (cur m : Str) (ms : List Str), isEntryLine m = true →
      partsAux cur (xs ++ m :: ms) = appendNlLast (partsAux cur xs) ++ partsAux m ms := by
  intro xs
  induction xs with
  | nil =>
    intro cur m ms hm
    show (if isEntryLine m = true then (cur ++ ['\n']) :: partsAux m ms
          else partsAux (cur ++ '\n' :: m) ms) = appendNlLast [cur] ++ partsAux m ms
    rw [if_pos hm]
    rfl
  | cons x xs ih =>
    intro cur m ms hm
    show (if isEntryLine x = true then (cur ++ ['\n']) :: partsAux x (xs ++ m :: ms)
          else partsAux (cur ++ '\n' :: x) (xs ++ m :: ms)) =
        appendNlLast (if isEntryLine x = true then (cur ++ ['\n']) :: partsAux x xs
          else partsAux (cur ++ '\n' :: x) xs) ++ partsAux m ms
    by_cases hb : isEntryLine x
    · rw [if_pos hb, if_pos hb, ih x m ms hm,
        appendNlLast_cons_of_ne_nil _ _ (partsAux_ne_nil xs x), List.cons_append]
    · rw [if_neg hb, if_neg hb, ih (cur ++ '\n' :: x) m ms hm]

theorem splitEntries_ne_nil (s : Str) : splitEntries s ≠ [] := by
  unfold splitEntries
  cases hsp : splitOnNl s with
  | nil => simp
  | cons l ls =>
    by_cases hb : isEntryLine l
    · simp [hb]
    · simp only [if_neg hb]
      exact partsAux_ne_nil ls l

theorem flatten_splitEntries (s : Str) : (splitEntries s).flatten = s := by
  unfold splitEntries
  cases hsp : splitOnNl s with
  | nil => exact absurd hsp (splitOnNl_ne_nil s)
  | cons l ls =>
    have hs : joinNl (l :: ls) = s := by rw [← hsp, joinNl_splitOnNl]
    dsimp only
    by_cases hb : isEntryLine l
    · rw [if_pos hb, List.flatten_cons, partsAux_flatten, hs]
      rfl
    · rw [if_neg hb, partsAux_flatten, hs]

theorem splitEntries_append (a b : Str) (m : Str) (ms : List Str)
    (hsplit : splitOnNl b = m :: ms) (hm : isEntryLine m = true)
    (hms : ∀ l ∈ ms, isEntryLine l = false) :
    splitEntries (a ++ '\n' :: b) = appendNlLast (splitEntries a) ++ [b] := by
  have hb : partsAux m ms = [b] := by
    rw [partsAux_no_boundary ms m hms, ← hsplit, joinNl_splitOnNl]
  have hsp : splitOnNl (a ++ '\n' :: b) = splitOnNl a ++ (m :: ms) := by
    rw [splitOnNl_append_newline, hsplit]
  unfold splitEntries
  rw [hsp]
  cases hspa : splitOnNl a with
  | nil => exact absurd hspa (splitOnNl_ne_nil a)
  | cons la lsa =>
    rw [List.cons_append]
    dsimp only
    by_cases hba : isEntryLine la
    · rw [if_pos hba, if_pos hba, partsAux_append_boundary lsa la m ms hm, hb,
        appendNlLast_cons_of_ne_nil _ _ (partsAux_ne_nil lsa la)]
      rfl
    · rw [if_neg hba, if_neg hba, partsAux_append_boundary lsa la m ms hm, hb]

theorem mem_appendNlLast : ∀ (l : List Str) (x : Str), x ∈ appendNlLast l →
    x ∈ l ∨ ∃ y ∈ l, x = y ++ ['\n'] := by
  intro l
  induction l with
  | nil => intro x hx; exact absurd hx (List.not_mem_nil x)
  | cons a as ih =>
    intro x hx
    cases as with
    | nil =>
      have : x = a ++ ['\n'] := by simpa [appendNlLast] using hx
      exact Or.inr ⟨a, by simp, this⟩
    | cons b bs =>
      rw [appendNlLast] at hx
      rcases List.mem_cons.mp hx with rfl | hx'
      · exact Or.inl (by simp)
      · rcases ih x hx' with h | ⟨y, hy, hxy⟩
        · exact Or.inl (by simp [h])
        · exact Or.inr ⟨y, by simp [hy], hxy⟩

theorem flatten_mem_decomp {α : Type} (a : List α) :
    ∀ L : List (List α), a ∈ L → ∃ u v, L.flatten = u ++ a ++ v := by
  intro L
  induction L with
  | nil => intro h; exact absurd h (List.not_mem_nil a)
  | cons b bs ih =>
    intro h
    rcases List.mem_cons.mp h with rfl | h'
    · exact ⟨[], bs.flatten, by simp⟩
    · obtain ⟨u, v, huv⟩ := ih h'
      exact ⟨b ++ u, v, by simp [huv]⟩

theorem dropWhile_cons_head {α : Type} (p : α → Bool) :
    ∀ (l : List α) (a : α) (t : List α), l.dropWhile p = a :: t → p a = false := by
  intro l
  induction l with
  | nil => intro a t h; exact absurd h (by simp)
  | cons b bs ih =>
    intro a t h
    by_cases hb : p b
    · rw [List.dropWhile_cons_of_pos hb] at h
      exact ih a t h
    · rw [List.dropWhile_cons_of_neg hb] at h
      obtain rfl : b = a := (List.cons.inj h).1
      exact Bool.eq_false_iff.mpr hb

/-- A stripped string never ends in a newline. -/
theorem pyStrip_not_end_newline (s : Str) : ∀ p', pyStrip s ≠ p' ++ ['\n'] := by
  intro p' h
  have hrev : (pyStrip s).reverse = '\n' :: p'.reverse := by
    rw [h]
    simp
  unfold pyStrip at hrev
  rw [List.reverse_reverse] at hrev
  have := dropWhile_cons_head pyWS _ _ _ hrev
  exact absurd this (by decide)

/-- C9: calling `appendDecision` twice with the same summary (trimmed
non-empty, not yet present in the document) returns `true` then `false`; the
second call writes nothing; afterwards the document holds exactly one
Auto-captured entry carrying that summary; and duplicate suppression returns
`false` exactly when the first 100 characters of the trimmed summary occur
anywhere in the existing document (documents within the 200 000-character
read limit, no pruning triggered, single-line timestamp, summary containing
no `"## "` heading line). -/
theorem append_decision_twice (existing summary ts1 ts2 : Str)
    (_hne : pyStrip summary ≠ [])
    (hdup : containsStr ((pyStrip summary).take 100) existing = false)
    (hsize : (existing ++ decisionEntry ts1 (pyStrip summary)).length ≤ 200000)
    (hents : (splitEntries (existing ++ decisionEntry ts1 (pyStrip summary))).tail.length ≤ 100)
    (hts1 : '\n' ∉ ts1)
    (hbody : ∀ l ∈ splitOnNl (pyStrip summary), isEntryLine l = false) :
    append_decision existing summary ts1 =
      (existing ++ decisionEntry ts1 (pyStrip summary), true) ∧
    append_decision (existing ++ decisionEntry ts1 (pyStrip summary)) summary ts2 =
      (existing ++ decisionEntry ts1 (pyStrip summary), false) ∧
    autoEntryCount (existing ++ decisionEntry ts1 (pyStrip summary)) (pyStrip summary) = 1 ∧
    (∀ (doc s t : Str), doc.length ≤ 200000 →
      ((append_decision doc s t).2 = false ↔
        containsStr ((pyStrip s).take 100) doc = true)) := by
  have hexlen : existing.length ≤ 200000 := by
    have := hsize
    rw [List.length_append] at this
    omega
  have hread : existing.take 200000 = existing := List.take_of_length_le hexlen
  have htrim100 : containsStr ((pyStrip summary).take 100) (pyStrip summary) = true :=
    (containsStr_eq_true_iff _ _).mpr
      ⟨[], (pyStrip summary).drop 100, by simp [List.take_append_drop]⟩
  have hdecomp : existing ++ decisionEntry ts1 (pyStrip summary) =
      (existing ++ '\n' :: ("## ".toList ++ ts1 ++ " — Auto-captured".toList ++ ['\n', '\n']))
        ++ pyStrip summary ++ ['\n'] := by
    simp [decisionEntry]
  have hprune : prune_decisions (existing ++ decisionEntry ts1 (pyStrip summary)) =
      existing ++ decisionEntry ts1 (pyStrip summary) := by
    unfold prune_decisions
    have htake : (existing ++ decisionEntry ts1 (pyStrip summary)).take 500000 =
        existing ++ decisionEntry ts1 (pyStrip summary) :=
      List.take_of_length_le (le_trans hsize (by norm_num))
    rw [htake]
    rw [if_pos hents]
  have hfirst : append_decision existing summary ts1 =
      (existing ++ decisionEntry ts1 (pyStrip summary), true) := by
    show (if containsStr ((pyStrip summary).take 100) (existing.take 200000) = true
          then (existing, false)
          else (prune_decisions (existing ++ decisionEntry ts1 (pyStrip summary)), true)) = _
    rw [hread, hdup]
    simp only [Bool.false_eq_true, if_false]
    rw [hprune]
  have hdoc1read : (existing ++ decisionEntry ts1 (pyStrip summary)).take 200000 =
      existing ++ decisionEntry ts1 (pyStrip summary) := List.take_of_length_le hsize
  have hcontains1 : containsStr ((pyStrip summary).take 100)
      (existing ++ decisionEntry ts1 (pyStrip summary)) = true := by
    rw [hdecomp]
    apply (containsStr_eq_true_iff _ _).mpr
    refine ⟨existing ++ '\n' :: ("## ".toList ++ ts1 ++ " — Auto-captured".toList
      ++ ['\n', '\n']), (pyStrip summary).drop 100 ++ ['\n'], ?_⟩
    calc existing ++ '\n' :: ("## ".toList ++ ts1 ++ " — Auto-captured".toList ++ ['\n', '\n'])
          ++ pyStrip summary ++ ['\n']
        = existing ++ '\n' :: ("## ".toList ++ ts1 ++ " — Auto-captured".toList ++ ['\n', '\n'])
          ++ ((pyStrip summary).take 100 ++ (pyStrip summary).drop 100) ++ ['\n'] := by
          rw [List.take_append_drop]
      _ = existing ++ '\n' :: ("## ".toList ++ ts1 ++ " — Auto-captured".toList ++ ['\n', '\n'])
          ++ (pyStrip summary).take 100 ++ ((pyStrip summary).drop 100 ++ ['\n']) := by
          simp
          conv_rhs => rw [← List.append_assoc]
          rw [List.take_append_drop]
  have hsecond : append_decision (existing ++ decisionEntry ts1 (pyStrip summary)) summary ts2 =
      (existing ++ decisionEntry ts1 (pyStrip summary), false) := by
    show (if containsStr ((pyStrip summary).take 100)
          ((existing ++ decisionEntry ts1 (pyStrip summary)).take 200000) = true
        then (existing ++ decisionEntry ts1 (pyStrip summary), false)
        else _) = _
    rw [hdoc1read, hcontains1]
    simp
  have hcontra : ∀ x ∈ splitEntries existing,
      containsStr (pyStrip summary) x = true → False := by
    intro x hx hcx
    obtain ⟨u, v, huv⟩ := flatten_mem_decomp x (splitEntries existing) hx
    rw [flatten_splitEntries] at huv
    obtain ⟨a, b, hab⟩ := (containsStr_eq_true_iff _ _).mp hcx
    have : containsStr ((pyStrip summary).take 100) existing = true := by
      apply (containsStr_eq_true_iff _ _).mpr
      refine ⟨u ++ a, (pyStrip summary).drop 100 ++ (b ++ v), ?_⟩
      calc existing = u ++ (a ++ pyStrip summary ++ b) ++ v := by rw [huv, hab]
        _ = u ++ (a ++ ((pyStrip summary).take 100 ++ (pyStrip summary).drop 100) ++ b)
            ++ v := by rw [List.take_append_drop]
        _ = u ++ a ++ (pyStrip summary).take 100
            ++ ((pyStrip summary).drop 100 ++ (b ++ v)) := by
            simp
            conv_rhs => rw [← List.append_assoc]
            rw [List.take_append_drop]
    rw [hdup] at this
    exact absurd this (by simp)
  have hcount : autoEntryCount (existing ++ decisionEntry ts1 (pyStrip summary))
      (pyStrip summary) = 1 := by
    have hmarker : " — Auto-captured".toList = " — ".toList ++ "Auto-captured".toList := by
      decide
    have heRest : decisionEntry ts1 (pyStrip summary) =
        '\n' :: ("## ".toList ++ ts1 ++ " — Auto-captured".toList ++
          ('\n' :: '\n' :: (pyStrip summary ++ ['\n']))) := rfl
    have hheadnl : '\n' ∉ ("## ".toList ++ ts1 ++ " — Auto-captured".toList) := by
      intro h
      rcases List.mem_append.mp h with h' | h'
      · rcases List.mem_append.mp h' with h'' | h''
        · exact absurd h'' (by decide)
        · exact hts1 h''
      · exact absurd h' (by decide)
    have hsplitb : splitOnNl ("## ".toList ++ ts1 ++ " — Auto-captured".toList ++
        ('\n' :: '\n' :: (pyStrip summary ++ ['\n']))) =
        ("## ".toList ++ ts1 ++ " — Auto-captured".toList) ::
          ([] :: (splitOnNl (pyStrip summary) ++ [[]])) := by
      rw [show "## ".toList ++ ts1 ++ " — Auto-captured".toList ++
          ('\n' :: '\n' :: (pyStrip summary ++ ['\n'])) =
          ("## ".toList ++ ts1 ++ " — Auto-captured".toList) ++
          '\n' :: ('\n' :: (pyStrip summary ++ ['\n'])) from by simp]
      rw [splitOnNl_append_newline, splitOnNl_eq_single _ hheadnl]
      have h2 : splitOnNl ('\n' :: (pyStrip summary ++ ['\n'])) =
          [] :: splitOnNl (pyStrip summary ++ ['\n']) := by
        simp [splitOnNl]
      rw [h2]
      have h3 : splitOnNl (pyStrip summary ++ ['\n']) =
          splitOnNl (pyStrip summary) ++ [[]] := by
        rw [show (pyStrip summary ++ ['\n'] : Str) = pyStrip summary ++ '\n' :: [] from rfl,
          splitOnNl_append_newline]
        rfl
      rw [h3]
      rfl
    have hmhead : isEntryLine ("## ".toList ++ ts1 ++ " — Auto-captured".toList) = true := by
      apply (isPrefixOf_eq_true_iff _ _).mpr
      exact ⟨ts1 ++ " — Auto-captured".toList, by simp⟩
    have hms : ∀ l ∈ ([] :: (splitOnNl (pyStrip summary) ++ [[]])),
        isEntryLine l = false := by
      intro l hl
      rcases List.mem_cons.mp hl with rfl | hl'
      · decide
      · rcases List.mem_append.mp hl' with h' | h'
        · exact hbody l h'
        · have : l = [] := by simpa using h'
          rw [this]
          decide
    have hsplitE : splitEntries (existing ++ decisionEntry ts1 (pyStrip summary)) =
        appendNlLast (splitEntries existing) ++
          [("## ".toList ++ ts1 ++ " — Auto-captured".toList ++
            ('\n' :: '\n' :: (pyStrip summary ++ ['\n'])))] := by
      rw [heRest]
      exact splitEntries_append existing _ _ _ hsplitb hmhead hms
    have hpredE1 : containsStr "Auto-captured".toList
        ("## ".toList ++ ts1 ++ " — Auto-captured".toList ++
          ('\n' :: '\n' :: (pyStrip summary ++ ['\n']))) = true := by
      apply (containsStr_eq_true_iff _ _).mpr
      refine ⟨"## ".toList ++ ts1 ++ " — ".toList,
        '\n' :: '\n' :: (pyStrip summary ++ ['\n']), ?_⟩
      rw [hmarker]
      simp
    have hpredE2 : containsStr (pyStrip summary)
        ("## ".toList ++ ts1 ++ " — Auto-captured".toList ++
          ('\n' :: '\n' :: (pyStrip summary ++ ['\n']))) = true := by
      apply (containsStr_eq_true_iff _ _).mpr
      refine ⟨"## ".toList ++ ts1 ++ " — Auto-captured".toList ++ ['\n', '\n'],
        ['\n'], ?_⟩
      simp
    have hfiltE : List.filter (fun e => containsStr "Auto-captured".toList e &&
        containsStr (pyStrip summary) e)
          [("## ".toList ++ ts1 ++ " — Auto-captured".toList ++
            ('\n' :: '\n' :: (pyStrip summary ++ ['\n'])))] =
          [("## ".toList ++ ts1 ++ " — Auto-captured".toList ++
            ('\n' :: '\n' :: (pyStrip summary ++ ['\n'])))] := by
      rw [List.filter_cons]
      rw [show (containsStr "Auto-captured".toList
          ("## ".toList ++ ts1 ++ " — Auto-captured".toList ++
            ('\n' :: '\n' :: (pyStrip summary ++ ['\n']))) &&
          containsStr (pyStrip summary)
          ("## ".toList ++ ts1 ++ " — Auto-captured".toList ++
            ('\n' :: '\n' :: (pyStrip summary ++ ['\n'])))) = true from by
        rw [hpredE1, hpredE2]
        rfl]
      rfl
    have hfiltOld : ∀ l : List Str, (∀ x ∈ l, x ∈ splitEntries existing) →
        List.filter (fun e => containsStr "Auto-captured".toList e &&
          containsStr (pyStrip summary) e) (appendNlLast l) = [] := by
      intro l hsub
      rw [List.filter_eq_nil_iff]
      intro a ha hpa
      have hpa' := (Bool.and_eq_true _ _).mp (by simpa using hpa)
      rcases mem_appendNlLast l a ha with hmem | ⟨y, hy, rfl⟩
      · exact hcontra a (hsub a hmem) hpa'.2
      · have hcy : containsStr (pyStrip summary) y = true :=
          containsStr_of_append_newline _ y (pyStrip_not_end_newline summary) hpa'.2
        exact hcontra y (hsub y hy) hcy
    unfold autoEntryCount
    rw [hsplitE]
    cases hP : splitEntries existing with
    | nil => exact absurd hP (splitEntries_ne_nil existing)
    | cons p0 prest =>
      cases prest with
      | nil =>
        rw [show appendNlLast [p0] ++
            [("## ".toList ++ ts1 ++ " — Auto-captured".toList ++
              ('\n' :: '\n' :: (pyStrip summary ++ ['\n'])))] =
            [p0 ++ ['\n'],
             ("## ".toList ++ ts1 ++ " — Auto-captured".toList ++
              ('\n' :: '\n' :: (pyStrip summary ++ ['\n'])))] from rfl,
          List.tail_cons, hfiltE]
        rfl
      | cons q qs =>
        rw [appendNlLast_cons_of_ne_nil p0 (q :: qs) (by simp), List.cons_append,
          List.tail_cons, List.filter_append, hfiltE,
          hfiltOld (q :: qs) (fun x hx => by rw [hP]; exact List.mem_cons_of_mem p0 hx)]
        rfl
  refine ⟨hfirst, hsecond, hcount, ?_⟩
  intro doc s t hdoclen
  have hdocread : doc.take 200000 = doc := List.take_of_length_le hdoclen
  show ((if containsStr ((pyStrip s).take 100) (doc.take 200000) = true
        then (doc, false)
        else (prune_decisions (doc ++ decisionEntry t (pyStrip s)), true)).2 = false ↔ _)
  rw [hdocread]
  by_cases hc : containsStr ((pyStrip s).take 100) doc = true
  · rw [hc]
    simp
  · have hcf : containsStr ((pyStrip s).take 100) doc = false := Bool.eq_false_iff.mpr hc
    rw [hcf]
    simp

set_option maxRecDepth 40000 in
/-- C9 witness: a concrete decision summary appended twice to a fresh
document. -/
theorem append_decision_twice_witness :
    append_decision "# Decisions\n\n".toList
        "We decided to use PostgreSQL because it handles complex queries well.".toList
        "2025-01-01T00-00-00-000000Z".toList =
      ("# Decisions\n\n".toList ++ decisionEntry "2025-01-01T00-00-00-000000Z".toList
        (pyStrip
          "We decided to use PostgreSQL because it handles complex queries well.".toList),
       true) ∧
    append_decision
        ("# Decisions\n\n".toList ++ decisionEntry "2025-01-01T00-00-00-000000Z".toList
          (pyStrip
            "We decided to use PostgreSQL because it handles complex queries well.".toList))
        "We decided to use PostgreSQL because it handles complex queries well.".toList
        "2025-01-01T00-05-00-000000Z".toList =
      ("# Decisions\n\n".toList ++ decisionEntry "2025-01-01T00-00-00-000000Z".toList
        (pyStrip
          "We decided to use PostgreSQL because it handles complex queries well.".toList),
       false) ∧
    autoEntryCount
      ("# Decisions\n\n".toList ++ decisionEntry "2025-01-01T00-00-00-000000Z".toList
        (pyStrip
          "We decided to use PostgreSQL because it handles complex queries well.".toList))
      (pyStrip
        "We decided to use PostgreSQL because it handles complex queries well.".toList) = 1 ∧
    ((append_decision "# Decisions\n\n".toList
        "We decided to use PostgreSQL because it handles complex queries well.".toList
        "2025-01-01T00-00-00-000000Z".toList).2 = false ↔
      containsStr
        ((pyStrip
          "We decided to use PostgreSQL because it handles complex queries well.".toList).take
            100)
        "# Decisions\n\n".toList = true) := by
  have h := append_decision_twice "# Decisions\n\n".toList
    "We decided to use PostgreSQL because it handles complex queries well.".toList
    "2025-01-01T00-00-00-000000Z".toList "2025-01-01T00-05-00-000000Z".toList
    (by decide) (by decide) (by decide) (by decide) (by decide) (by decide)
  exact ⟨h.1, h.2.1, h.2.2.1, h.2.2.2 _ _ _ (by decide)⟩

end Decisions

end CCCM
